import Mathlib

/-!
Verification of the explicit-list memory allocator implemented in
`proj4-code/el_malloc.c`.

The heap is a single contiguous region.  We normalise `heap_start` to
address `0`, so `heap_end` coincides with `heap_bytes` and every pointer is
a plain `Nat` byte offset into the region.  Heap memory is modelled by two
address-indexed views, one for block headers and one for block footers
(header and footer records of a well-formed heap never overlap, so the two
views never alias).  The intrusive `next`/`prev` links of a block list are
modelled by the order of the list's `blocks` sequence (front first, i.e.
the block reached from the begin sentinel's `next` pointer comes first);
the sentinel nodes themselves live inside the control structure, not in
the heap, and are left implicit.
-/

/-- Block states stored in a header's `state` field.  `zeroed` is the
content of untouched (mmap zero-filled) memory; the list sentinels live
outside the heap and need no state here. -/
inductive BlockState where
  | available : BlockState
  | used : BlockState
  | zeroed : BlockState
deriving DecidableEq

/-- A block header (`el_blockhead_t`): the `size` of the block's payload in
bytes and its `state`.  The intrusive `next`/`prev` links are represented
by the position of the block's address inside the owning list's `blocks`
sequence. -/
structure BlockHead where
  size : Nat
  state : BlockState
deriving DecidableEq

/-- Modelled from the spec: `el_malloc.h` is not under `src/`.  The spec's
concrete scenario fixes the per-block overhead at 40 bytes; the header
(`size_t` + `char` state + two pointers, padded) occupies 32 bytes. -/
def sizeofHead : Nat := 32

/-- Modelled from the spec: the footer (`el_blockfoot_t`) holds a single
`size_t`, 8 bytes. -/
def sizeofFoot : Nat := 8

/-- `EL_BLOCK_OVERHEAD`: total header+footer cost of one block (40). -/
def EL_BLOCK_OVERHEAD : Nat := sizeofHead + sizeofFoot

/-- A block list (`el_blocklist_t`): member block addresses in list order
(front first), plus the incrementally maintained `length` and `bytes`
counters.  The begin/end sentinels are implicit. -/
structure BlockList where
  blocks : List Nat
  length : Nat
  bytes : Nat
deriving DecidableEq

/-- The allocator control structure (`el_ctl_t`), with `heap_start`
normalised to address 0 (so `heap_end = heap_bytes`). -/
structure CtlState where
  heap_bytes : Nat
  heads : Nat → BlockHead
  foots : Nat → Nat
  avail : BlockList
  used : BlockList

/-- Content of zero-filled heap memory viewed as a header. -/
def zeroHead : BlockHead := ⟨0, BlockState.zeroed⟩

/-- Write a header record at an address (plain if-then-else store). -/
def writeHead (m : Nat → BlockHead) (a : Nat) (v : BlockHead) : Nat → BlockHead :=
  fun x => if x = a then v else m x

/-- Write a footer size at an address. -/
def writeFoot (m : Nat → Nat) (a : Nat) (v : Nat) : Nat → Nat :=
  fun x => if x = a then v else m x

/-- Store into the `size` field of the header at `a`, leaving `state` alone. -/
def setHeadSize (m : Nat → BlockHead) (a : Nat) (sz : Nat) : Nat → BlockHead :=
  writeHead m a ⟨sz, (m a).state⟩

/-- Store into the `state` field of the header at `a`, leaving `size` alone. -/
def setHeadState (m : Nat → BlockHead) (a : Nat) (s : BlockState) : Nat → BlockHead :=
  writeHead m a ⟨(m a).size, s⟩

/-- `el_get_footer`: address of the footer of the block whose header is at
`head`: `head + sizeof(el_blockhead_t) + head->size`. -/
def el_get_footer (m : Nat → BlockHead) (head : Nat) : Nat :=
  head + sizeofHead + (m head).size

/-- `el_get_header`: address of the header owning the footer at `foot`:
`foot - (sizeof(el_blockhead_t) + foot->size)`. -/
def el_get_header (f : Nat → Nat) (foot : Nat) : Nat :=
  foot - (sizeofHead + f foot)

/-- `el_block_above`: the physically next block's header,
`block + block->size + EL_BLOCK_OVERHEAD`, or none if that address is at
or past `heap_end`. -/
def el_block_above (st : CtlState) (block : Nat) : Option Nat :=
  let higher := block + (st.heads block).size + EL_BLOCK_OVERHEAD
  if st.heap_bytes ≤ higher then none else some higher

/-- `el_block_below`: none if `block` is at `heap_start` (address 0);
otherwise read the footer just below `block` and recover its header. -/
def el_block_below (st : CtlState) (block : Nat) : Option Nat :=
  if block = 0 then none
  else some (el_get_header st.foots (block - sizeofFoot))

/-- `el_init_blocklist`: an empty list (sentinels wired to each other,
`length = bytes = 0`). -/
def el_init_blocklist : BlockList := ⟨[], 0, 0⟩

/-- `el_add_block_front`: link `block` right after the begin sentinel,
increment `length`, add `block->size + EL_BLOCK_OVERHEAD` to `bytes`. -/
def el_add_block_front (m : Nat → BlockHead) (list : BlockList) (block : Nat) : BlockList :=
  { blocks := block :: list.blocks
    length := list.length + 1
    bytes := list.bytes + ((m block).size + EL_BLOCK_OVERHEAD) }

/-- `el_remove_block`: unlink `block` via its own links (precondition:
`block` is a member), decrement `length`, subtract
`block->size + EL_BLOCK_OVERHEAD` from `bytes`. -/
def el_remove_block (m : Nat → BlockHead) (list : BlockList) (block : Nat) : BlockList :=
  { blocks := list.blocks.erase block
    length := list.length - 1
    bytes := list.bytes - ((m block).size + EL_BLOCK_OVERHEAD) }

/-- `el_init`, with the region size as a parameter (the C source fixes it
to `EL_HEAP_INITIAL_SIZE` and asserts the mmap address): fails when the
region cannot host even one block's overhead, otherwise seeds the heap
with a single available block spanning the whole region. -/
def el_init (heap_bytes : Nat) : Option CtlState :=
  if heap_bytes < EL_BLOCK_OVERHEAD then none else
  let size := heap_bytes - EL_BLOCK_OVERHEAD
  let heads1 := writeHead (fun _ => zeroHead) 0 ⟨size, BlockState.available⟩
  let foots1 := writeFoot (fun _ => 0) (el_get_footer heads1 0) size
  some { heap_bytes := heap_bytes
         heads := heads1
         foots := foots1
         avail := el_add_block_front heads1 el_init_blocklist 0
         used := el_init_blocklist }

/-- Loop of `el_find_first_avail`: walk the available list from the front
and return the first block whose size is at least `size + EL_BLOCK_OVERHEAD`. -/
def el_find_first_avail_loop (m : Nat → BlockHead) (size : Nat) : List Nat → Option Nat
  | [] => none
  | b :: rest =>
    if size + EL_BLOCK_OVERHEAD ≤ (m b).size then some b
    else el_find_first_avail_loop m size rest

/-- `el_find_first_avail`. -/
def el_find_first_avail (st : CtlState) (size : Nat) : Option Nat :=
  el_find_first_avail_loop st.heads size st.avail.blocks

/-- `el_split_block`: refuse (no mutation) when
`block->size < new_size + EL_BLOCK_OVERHEAD`; otherwise shrink `block` to
`new_size`, write its new footer, and carve the upper block out of the
remainder.  The C source obtains the upper header from `el_block_above`
and dereferences it without a null check; under the guard the address
`block + new_size + EL_BLOCK_OVERHEAD` is strictly inside the heap
whenever `block`'s extent is, so we compute it directly.  No list links
are touched. -/
def el_split_block (st : CtlState) (block : Nat) (new_size : Nat) : CtlState × Option Nat :=
  if (st.heads block).size < new_size + EL_BLOCK_OVERHEAD then (st, none) else
  let original_size := (st.heads block).size
  let upper_foot := el_get_footer st.heads block
  let heads1 := setHeadSize st.heads block new_size
  let foots1 := writeFoot st.foots (el_get_footer heads1 block) new_size
  let upper_head := block + new_size + EL_BLOCK_OVERHEAD
  let heads2 := setHeadSize heads1 upper_head (original_size - new_size - EL_BLOCK_OVERHEAD)
  let foots2 := writeFoot foots1 upper_foot ((heads2 upper_head).size)
  ({ st with heads := heads2, foots := foots2 }, some upper_head)

/-- `el_malloc`: first fit, unlink, split, move to the used list, link any
remainder into the available list, and return the payload pointer
(`header + sizeof(el_blockhead_t)`). -/
def el_malloc (st : CtlState) (nbytes : Nat) : CtlState × Option Nat :=
  match el_find_first_avail st nbytes with
  | none => (st, none)
  | some user_block =>
    let st1 := { st with avail := el_remove_block st.heads st.avail user_block }
    let split := el_split_block st1 user_block nbytes
    let st2 := split.1
    let st3 := { st2 with used := el_add_block_front st2.heads st2.used user_block }
    let st4 := { st3 with heads := setHeadState st3.heads user_block BlockState.used }
    match split.2 with
    | none => (st4, some (user_block + sizeofHead))
    | some remaining =>
      let st5 := { st4 with avail := el_add_block_front st4.heads st4.avail remaining }
      let st6 := { st5 with heads := setHeadState st5.heads remaining BlockState.available }
      (st6, some (user_block + sizeofHead))

/-- `el_merge_block_with_above`: no-op when `lower` is null or its state is
`EL_USED`, or when the block above is null or its state is `EL_USED`.
Otherwise remove both from the available list, grow `lower` by
`higher->size + EL_BLOCK_OVERHEAD`, rewrite the (former) footer of
`higher`, and re-add `lower` to the front of the available list. -/
def el_merge_block_with_above (st : CtlState) (lower : Option Nat) : CtlState :=
  match lower with
  | none => st
  | some lower =>
    if (st.heads lower).state = BlockState.used then st else
    match el_block_above st lower with
    | none => st
    | some higher =>
      if (st.heads higher).state = BlockState.used then st else
      let new_size := (st.heads lower).size + (st.heads higher).size + EL_BLOCK_OVERHEAD
      let avail1 := el_remove_block st.heads st.avail lower
      let avail2 := el_remove_block st.heads avail1 higher
      let heads1 := setHeadSize st.heads lower new_size
      let foots1 := writeFoot st.foots (el_get_footer heads1 higher) new_size
      let avail3 := el_add_block_front heads1 avail2 lower
      { st with heads := heads1, foots := foots1, avail := avail3 }

/-- `el_free`: recover the header at `ptr - sizeof(el_blockhead_t)`; if it
is already `EL_AVAILABLE` do nothing; otherwise move it from the used list
to the front of the available list and attempt to merge upward from the
freed block and from the block physically below it. -/
def el_free (st : CtlState) (ptr : Nat) : CtlState :=
  let user_block := ptr - sizeofHead
  if (st.heads user_block).state = BlockState.available then st else
  let st1 := { st with used := el_remove_block st.heads st.used user_block }
  let st2 := { st1 with heads := setHeadState st1.heads user_block BlockState.available }
  let st3 := { st2 with avail := el_add_block_front st2.heads st2.avail user_block }
  let st4 := el_merge_block_with_above st3 (some user_block)
  el_merge_block_with_above st4 (el_block_below st4 user_block)

/-- The state reached by the first half of `el_free` on the block at `b`
(unlink from the used list, mark available, link to the front of the
available list), before the two merge attempts. -/
def freeStep (st : CtlState) (b : Nat) : CtlState :=
  { heap_bytes := st.heap_bytes
    heads := writeHead st.heads b ⟨(st.heads b).size, BlockState.available⟩
    foots := st.foots
    avail := { blocks := b :: st.avail.blocks
               length := st.avail.length + 1
               bytes := st.avail.bytes + ((st.heads b).size + EL_BLOCK_OVERHEAD) }
    used := { blocks := st.used.blocks.erase b
              length := st.used.length - 1
              bytes := st.used.bytes - ((st.heads b).size + EL_BLOCK_OVERHEAD) } }

/-- A throwaway control state used only as an `Option.getD` default. -/
def dummyState : CtlState :=
  { heap_bytes := 0, heads := fun _ => zeroHead, foots := fun _ => 0
    avail := el_init_blocklist, used := el_init_blocklist }

/-- The freshly initialised 4096-byte demonstration heap from the spec's
concrete scenario. -/
def heap0 : CtlState := (el_init 4096).getD dummyState

/-- Demonstration heap after one `el_malloc 100` on `heap0`. -/
def heap1 : CtlState := (el_malloc heap0 100).1

/-- Demonstration heap after allocations of 50, 100, 100, 100 bytes on
`heap0` (blocks at 0, 90, 230, 370; payload pointers 32, 122, 262, 402). -/
def demoUsed4 : CtlState :=
  (el_malloc (el_malloc (el_malloc (el_malloc heap0 50).1 100).1 100).1 100).1

/-- `demoUsed4` after freeing the 50-byte block at address 0, leaving the
three adjacent used blocks at 90, 230, 370 with an available block below
them. -/
def demoFreeD : CtlState := el_free demoUsed4 32

/-- `demoFreeD` after freeing the three adjacent blocks in order. -/
def demoFreedABC : CtlState := el_free (el_free (el_free demoFreeD 122) 262) 402

/-- Demonstration heap after allocations of 50, 100, 100, 100, 50 bytes:
the three 100-byte blocks at 90, 230, 370 are fenced by used blocks at 0
and 510. -/
def demoUsed5 : CtlState := (el_malloc demoUsed4 50).1

/-!
The abstract view of a heap: the physical sequence of blocks in address
order.  A well-formed heap is tiled by blocks, each contributing its
payload size plus `EL_BLOCK_OVERHEAD` bytes, and every concrete component
of the control state (memory views, list contents, counters) is determined
by this sequence.
-/

/-- One block of the abstract heap view: payload size and whether the
block is in the `Available` state (`false` means `Used`). -/
structure RBlock where
  size : Nat
  isAvail : Bool
deriving DecidableEq

/-- Total footprint in bytes of a sequence of blocks. -/
def repSize : List RBlock → Nat
  | [] => 0
  | b :: rest => b.size + EL_BLOCK_OVERHEAD + repSize rest

/-- The heap memory views agree with the given block sequence laid out
from address `base`: each block's header holds its size and state, and its
footer holds its size. -/
def TilesSeg (m : Nat → BlockHead) (f : Nat → Nat) : Nat → List RBlock → Prop
  | _, [] => True
  | base, b :: rest =>
    m base = ⟨b.size, if b.isAvail then BlockState.available else BlockState.used⟩ ∧
    f (base + sizeofHead + b.size) = b.size ∧
    TilesSeg m f (base + b.size + EL_BLOCK_OVERHEAD) rest

instance instDecTilesSeg (m : Nat → BlockHead) (f : Nat → Nat) :
    (base : Nat) → (rep : List RBlock) → Decidable (TilesSeg m f base rep)
  | _, [] => isTrue trivial
  | base, b :: rest =>
    letI : Decidable (TilesSeg m f (base + b.size + EL_BLOCK_OVERHEAD) rest) :=
      instDecTilesSeg m f _ rest
    decidable_of_iff
      (m base = ⟨b.size, if b.isAvail then BlockState.available else BlockState.used⟩ ∧
        f (base + sizeofHead + b.size) = b.size ∧
        TilesSeg m f (base + b.size + EL_BLOCK_OVERHEAD) rest)
      Iff.rfl

/-- Addresses of the available blocks of a sequence laid out from `base`,
in address order. -/
def availAddrs : Nat → List RBlock → List Nat
  | _, [] => []
  | base, b :: rest =>
    let tail := availAddrs (base + b.size + EL_BLOCK_OVERHEAD) rest
    if b.isAvail then base :: tail else tail

/-- Addresses of the used blocks of a sequence laid out from `base`. -/
def usedAddrs : Nat → List RBlock → List Nat
  | _, [] => []
  | base, b :: rest =>
    let tail := usedAddrs (base + b.size + EL_BLOCK_OVERHEAD) rest
    if b.isAvail then tail else base :: tail

/-- Byte total (`size + EL_BLOCK_OVERHEAD` per member) of the available
blocks of a sequence. -/
def repAvailBytes : List RBlock → Nat
  | [] => 0
  | b :: rest =>
    (if b.isAvail then b.size + EL_BLOCK_OVERHEAD else 0) + repAvailBytes rest

/-- Byte total of the used blocks of a sequence. -/
def repUsedBytes : List RBlock → Nat
  | [] => 0
  | b :: rest =>
    (if b.isAvail then 0 else b.size + EL_BLOCK_OVERHEAD) + repUsedBytes rest

/-- The control state is faithfully described by the block sequence `rep`:
the heap is exactly tiled by `rep`, each list holds exactly the addresses
of the blocks in the matching state, and the incrementally maintained
`length`/`bytes` counters agree with the list contents. -/
structure Models (st : CtlState) (rep : List RBlock) : Prop where
  tiles : TilesSeg st.heads st.foots 0 rep
  total : repSize rep = st.heap_bytes
  avail_perm : st.avail.blocks.Perm (availAddrs 0 rep)
  avail_len : st.avail.length = st.avail.blocks.length
  avail_bytes : st.avail.bytes = repAvailBytes rep
  used_perm : st.used.blocks.Perm (usedAddrs 0 rep)
  used_len : st.used.length = st.used.blocks.length
  used_bytes : st.used.bytes = repUsedBytes rep

/-- No two physically adjacent blocks of the sequence are both available. -/
def NoAdjAvail (rep : List RBlock) : Prop :=
  List.Chain' (fun x y => ¬(x.isAvail = true ∧ y.isAvail = true)) rep

/-- First merge attempt of `el_free` on the abstract sequence: the freed
block (now available) absorbs its upper neighbour when that is available.
Returns the block standing at the freed address and the remaining upper
sequence. -/
def repFreeUpper (blk : RBlock) (post : List RBlock) : RBlock × List RBlock :=
  match post with
  | [] => (⟨blk.size, true⟩, [])
  | hi :: post' =>
    if hi.isAvail then (⟨blk.size + hi.size + EL_BLOCK_OVERHEAD, true⟩, post')
    else (⟨blk.size, true⟩, hi :: post')

/-- Second merge attempt of `el_free` on the abstract sequence: the block
`m` standing at the freed address is absorbed by its lower neighbour when
that is available. -/
def repFreeLower (pre : List RBlock) (m : RBlock) (post2 : List RBlock) : List RBlock :=
  match pre.getLast? with
  | some lo =>
    if lo.isAvail then
      pre.dropLast ++ ⟨lo.size + m.size + EL_BLOCK_OVERHEAD, true⟩ :: post2
    else pre ++ m :: post2
  | none => pre ++ m :: post2

/-- Effect of `el_free` on the abstract block sequence, when the freed
block `blk` (a used block) is preceded by `pre` and followed by `post`:
the block becomes available, then merges with its upper physical neighbour
if that is available, then with its lower physical neighbour if that is
available. -/
def repFree (pre : List RBlock) (blk : RBlock) (post : List RBlock) : List RBlock :=
  repFreeLower pre (repFreeUpper blk post).1 (repFreeUpper blk post).2

/-- Walk the physical blocks of the heap from address 0 using each
block's own recorded size (fuel-bounded so that the walk is structurally
recursive; `heap_bytes` steps are always enough because each block
occupies at least `EL_BLOCK_OVERHEAD` bytes). -/
def blockAddrsFromFuel (st : CtlState) : Nat → Nat → List Nat
  | 0, _ => []
  | fuel + 1, a =>
    if a < st.heap_bytes then
      a :: blockAddrsFromFuel st fuel (a + (st.heads a).size + EL_BLOCK_OVERHEAD)
    else []

/-- Addresses of all physical blocks of the heap, lowest first. -/
def blockAddrs (st : CtlState) : List Nat := blockAddrsFromFuel st st.heap_bytes 0

/-- States reachable through the public interface: a successful `el_init`
followed by any sequence of `el_malloc` calls and `el_free` calls whose
pointer is either the payload pointer of a block of the used list or a
stale pointer to a still-available block (the weak double-free case). -/
inductive Reach : CtlState → Prop where
  | init : ∀ S st, el_init S = some st → Reach st
  | malloc : ∀ st n, Reach st → Reach (el_malloc st n).1
  | free : ∀ st p, Reach st →
      ((p - sizeofHead) ∈ st.used.blocks ∨
        (st.heads (p - sizeofHead)).state = BlockState.available) →
      Reach (el_free st p)

/-!
Basic rewriting lemmas for the memory views and the list operations.
-/

theorem EL_BLOCK_OVERHEAD_eq : EL_BLOCK_OVERHEAD = 40 := rfl

theorem sizeofHead_eq : sizeofHead = 32 := rfl

theorem sizeofFoot_eq : sizeofFoot = 8 := rfl

theorem writeHead_same (m : Nat → BlockHead) (a : Nat) (v : BlockHead) :
    writeHead m a v a = v := by
  simp [writeHead]

theorem writeHead_other {x a : Nat} (m : Nat → BlockHead) (v : BlockHead) (h : x ≠ a) :
    writeHead m a v x = m x := by
  simp [writeHead, h]

theorem writeFoot_same (m : Nat → Nat) (a : Nat) (v : Nat) :
    writeFoot m a v a = v := by
  simp [writeFoot]

theorem writeFoot_other {x a : Nat} (m : Nat → Nat) (v : Nat) (h : x ≠ a) :
    writeFoot m a v x = m x := by
  simp [writeFoot, h]

/-!
The first-fit search is `List.find?` over the available list.
-/

theorem find_loop_eq (m : Nat → BlockHead) (n : Nat) (l : List Nat) :
    el_find_first_avail_loop m n l
      = l.find? (fun a => n + EL_BLOCK_OVERHEAD ≤ (m a).size) := by
  induction l with
  | nil => rfl
  | cons b rest ih =>
    by_cases h : n + EL_BLOCK_OVERHEAD ≤ (m b).size
    · simp [el_find_first_avail_loop, h]
    · simp [el_find_first_avail_loop, h, ih]

theorem el_find_first_avail_eq (st : CtlState) (n : Nat) :
    el_find_first_avail st n
      = st.avail.blocks.find? (fun a => n + EL_BLOCK_OVERHEAD ≤ (st.heads a).size) :=
  find_loop_eq st.heads n st.avail.blocks

theorem find_first_avail_some {st : CtlState} {n b : Nat}
    (h : el_find_first_avail st n = some b) :
    b ∈ st.avail.blocks ∧ n + EL_BLOCK_OVERHEAD ≤ (st.heads b).size := by
  rw [el_find_first_avail_eq] at h
  refine ⟨List.mem_of_find?_eq_some h, ?_⟩
  have := List.find?_some h
  simpa using this

theorem find_first_avail_none (st : CtlState) (n : Nat)
    (h : ∀ a ∈ st.avail.blocks, (st.heads a).size < n + EL_BLOCK_OVERHEAD) :
    el_find_first_avail st n = none := by
  rw [el_find_first_avail_eq]
  refine List.find?_eq_none.2 ?_
  intro a ha
  simpa using Nat.not_le.2 (h a ha)

/-!
Normal forms of the mutating operations.
-/

theorem el_malloc_found (st : CtlState) (n b : Nat)
    (hfind : el_find_first_avail st n = some b)
    (hsz : n + EL_BLOCK_OVERHEAD ≤ (st.heads b).size) :
    el_malloc st n =
      ({ heap_bytes := st.heap_bytes
         heads := writeHead
            (writeHead
              (setHeadSize (setHeadSize st.heads b n)
                (b + n + EL_BLOCK_OVERHEAD) ((st.heads b).size - n - EL_BLOCK_OVERHEAD))
              b ⟨n, BlockState.used⟩)
            (b + n + EL_BLOCK_OVERHEAD)
            ⟨(st.heads b).size - n - EL_BLOCK_OVERHEAD, BlockState.available⟩
         foots := writeFoot
            (writeFoot st.foots (b + sizeofHead + n) n)
            (b + sizeofHead + (st.heads b).size)
            ((st.heads b).size - n - EL_BLOCK_OVERHEAD)
         avail := { blocks := (b + n + EL_BLOCK_OVERHEAD) :: st.avail.blocks.erase b
                    length := st.avail.length - 1 + 1
                    bytes := st.avail.bytes - ((st.heads b).size + EL_BLOCK_OVERHEAD)
                              + ((st.heads b).size - n - EL_BLOCK_OVERHEAD + EL_BLOCK_OVERHEAD) }
         used := { blocks := b :: st.used.blocks
                   length := st.used.length + 1
                   bytes := st.used.bytes + (n + EL_BLOCK_OVERHEAD) } },
       some (b + sizeofHead)) := by
  have hguard : ¬((st.heads b).size < n + EL_BLOCK_OVERHEAD) := Nat.not_lt.2 hsz
  have hne : ¬(b + n + EL_BLOCK_OVERHEAD = b) := by
    rw [EL_BLOCK_OVERHEAD_eq]; omega
  have hne' : ¬(b = b + n + EL_BLOCK_OVERHEAD) := fun h => hne h.symm
  simp only [el_malloc, hfind, el_split_block, el_remove_block, el_add_block_front,
    el_get_footer, setHeadSize, setHeadState, writeHead_same, hguard, if_false,
    writeHead_other _ _ hne, writeHead_other _ _ hne']

theorem el_block_above_some {st : CtlState} {a b : Nat}
    (h : el_block_above st a = some b) :
    b = a + (st.heads a).size + EL_BLOCK_OVERHEAD ∧ b < st.heap_bytes := by
  unfold el_block_above at h
  by_cases hc : st.heap_bytes ≤ a + (st.heads a).size + EL_BLOCK_OVERHEAD
  · simp [hc] at h
  · simp only [hc, if_false, Option.some.injEq] at h
    exact ⟨h.symm, by omega⟩

theorem el_block_above_of_lt {st : CtlState} {a : Nat}
    (h : a + (st.heads a).size + EL_BLOCK_OVERHEAD < st.heap_bytes) :
    el_block_above st a = some (a + (st.heads a).size + EL_BLOCK_OVERHEAD) := by
  unfold el_block_above
  simp [Nat.not_le.2 h]

theorem el_block_above_of_end {st : CtlState} {a : Nat}
    (h : st.heap_bytes ≤ a + (st.heads a).size + EL_BLOCK_OVERHEAD) :
    el_block_above st a = none := by
  unfold el_block_above
  simp [h]

theorem el_merge_none (st : CtlState) :
    el_merge_block_with_above st none = st := rfl

theorem el_merge_lower_used (st : CtlState) (lower : Nat)
    (h : (st.heads lower).state = BlockState.used) :
    el_merge_block_with_above st (some lower) = st := by
  simp [el_merge_block_with_above, h]

theorem el_merge_no_above (st : CtlState) (lower : Nat)
    (h : el_block_above st lower = none) :
    el_merge_block_with_above st (some lower) = st := by
  simp only [el_merge_block_with_above]
  rw [h]
  split <;> rfl

theorem el_merge_higher_used (st : CtlState) (lower higher : Nat)
    (ha : el_block_above st lower = some higher)
    (h : (st.heads higher).state = BlockState.used) :
    el_merge_block_with_above st (some lower) = st := by
  simp only [el_merge_block_with_above]
  rw [ha]
  split
  · rfl
  · simp [h]

theorem el_merge_yes (st : CtlState) (lower higher : Nat)
    (hlo : ¬((st.heads lower).state = BlockState.used))
    (habove : el_block_above st lower = some higher)
    (hhi : ¬((st.heads higher).state = BlockState.used)) :
    el_merge_block_with_above st (some lower) =
      { heap_bytes := st.heap_bytes
        heads := writeHead st.heads lower
          ⟨(st.heads lower).size + (st.heads higher).size + EL_BLOCK_OVERHEAD,
            (st.heads lower).state⟩
        foots := writeFoot st.foots (higher + sizeofHead + (st.heads higher).size)
          ((st.heads lower).size + (st.heads higher).size + EL_BLOCK_OVERHEAD)
        avail := { blocks := lower :: ((st.avail.blocks.erase lower).erase higher)
                   length := st.avail.length - 1 - 1 + 1
                   bytes := st.avail.bytes - ((st.heads lower).size + EL_BLOCK_OVERHEAD)
                             - ((st.heads higher).size + EL_BLOCK_OVERHEAD)
                             + ((st.heads lower).size + (st.heads higher).size
                                 + EL_BLOCK_OVERHEAD + EL_BLOCK_OVERHEAD) }
        used := st.used } := by
  obtain ⟨hb, _⟩ := el_block_above_some habove
  have hne : higher ≠ lower := by rw [hb, EL_BLOCK_OVERHEAD_eq]; omega
  simp only [el_merge_block_with_above]
  rw [habove]
  simp only [if_neg hlo, if_neg hhi, el_remove_block, el_add_block_front,
    el_get_footer, setHeadSize, writeHead_same, writeHead_other _ _ hne]

theorem el_free_used_eq (st : CtlState) (p : Nat)
    (h : ¬((st.heads (p - sizeofHead)).state = BlockState.available)) :
    el_free st p =
      el_merge_block_with_above
        (el_merge_block_with_above (freeStep st (p - sizeofHead)) (some (p - sizeofHead)))
        (el_block_below
          (el_merge_block_with_above (freeStep st (p - sizeofHead)) (some (p - sizeofHead)))
          (p - sizeofHead)) := by
  simp only [el_free, if_neg h, el_remove_block, el_add_block_front, setHeadState,
    writeHead_same, freeStep]

/-!
Lemmas about the abstract block sequence.
-/

theorem repSize_append (l1 l2 : List RBlock) :
    repSize (l1 ++ l2) = repSize l1 + repSize l2 := by
  induction l1 with
  | nil => simp [repSize]
  | cons b rest ih => simp [repSize, ih]; omega

theorem tilesSeg_nil (m : Nat → BlockHead) (f : Nat → Nat) (base : Nat) :
    TilesSeg m f base [] := trivial

theorem tilesSeg_cons {m : Nat → BlockHead} {f : Nat → Nat} {base : Nat}
    {b : RBlock} {rest : List RBlock} :
    TilesSeg m f base (b :: rest) ↔
      (m base = ⟨b.size, if b.isAvail then BlockState.available else BlockState.used⟩ ∧
        f (base + sizeofHead + b.size) = b.size ∧
        TilesSeg m f (base + b.size + EL_BLOCK_OVERHEAD) rest) := Iff.rfl

theorem tilesSeg_append {m : Nat → BlockHead} {f : Nat → Nat} (base : Nat)
    (l1 l2 : List RBlock) :
    TilesSeg m f base (l1 ++ l2) ↔
      TilesSeg m f base l1 ∧ TilesSeg m f (base + repSize l1) l2 := by
  induction l1 generalizing base with
  | nil => simp [TilesSeg, repSize]
  | cons b rest ih =>
    simp only [List.cons_append, tilesSeg_cons, ih, repSize]
    constructor
    · rintro ⟨h1, h2, h3, h4⟩
      refine ⟨⟨h1, h2, h3⟩, ?_⟩
      have : base + (b.size + EL_BLOCK_OVERHEAD + repSize rest)
          = base + b.size + EL_BLOCK_OVERHEAD + repSize rest := by omega
      rw [this]; exact h4
    · rintro ⟨⟨h1, h2, h3⟩, h4⟩
      refine ⟨h1, h2, h3, ?_⟩
      have : base + b.size + EL_BLOCK_OVERHEAD + repSize rest
          = base + (b.size + EL_BLOCK_OVERHEAD + repSize rest) := by omega
      rw [this]; exact h4

theorem tilesSeg_congr {m m' : Nat → BlockHead} {f f' : Nat → Nat} {base : Nat}
    {rep : List RBlock}
    (hm : ∀ a, base ≤ a → a < base + repSize rep → m' a = m a)
    (hf : ∀ a, base ≤ a → a < base + repSize rep → f' a = f a)
    (h : TilesSeg m f base rep) : TilesSeg m' f' base rep := by
  induction rep generalizing base with
  | nil => trivial
  | cons b rest ih =>
    obtain ⟨h1, h2, h3⟩ := h
    have hsz : repSize (b :: rest) = b.size + EL_BLOCK_OVERHEAD + repSize rest := rfl
    have hov : EL_BLOCK_OVERHEAD = 40 := rfl
    have hhd : sizeofHead = 32 := rfl
    refine ⟨?_, ?_, ?_⟩
    · rw [hm base (Nat.le_refl _) (by omega)]; exact h1
    · rw [hf (base + sizeofHead + b.size) (by omega) (by omega)]; exact h2
    · exact ih (fun a ha hb => hm a (by omega) (by omega))
        (fun a ha hb => hf a (by omega) (by omega)) h3

theorem availAddrs_append (base : Nat) (l1 l2 : List RBlock) :
    availAddrs base (l1 ++ l2)
      = availAddrs base l1 ++ availAddrs (base + repSize l1) l2 := by
  induction l1 generalizing base with
  | nil => simp [availAddrs, repSize]
  | cons b rest ih =>
    have : base + repSize (b :: rest)
        = base + b.size + EL_BLOCK_OVERHEAD + repSize rest := by
      simp [repSize]; omega
    by_cases hb : b.isAvail
    · simp [availAddrs, hb, ih, this]
    · simp [availAddrs, hb, ih, this]

theorem usedAddrs_append (base : Nat) (l1 l2 : List RBlock) :
    usedAddrs base (l1 ++ l2)
      = usedAddrs base l1 ++ usedAddrs (base + repSize l1) l2 := by
  induction l1 generalizing base with
  | nil => simp [usedAddrs, repSize]
  | cons b rest ih =>
    have : base + repSize (b :: rest)
        = base + b.size + EL_BLOCK_OVERHEAD + repSize rest := by
      simp [repSize]; omega
    by_cases hb : b.isAvail
    · simp [usedAddrs, hb, ih, this]
    · simp [usedAddrs, hb, ih, this]

theorem mem_availAddrs_bounds {a base : Nat} {rep : List RBlock}
    (h : a ∈ availAddrs base rep) :
    base ≤ a ∧ a < base + repSize rep := by
  induction rep generalizing base with
  | nil => simp [availAddrs] at h
  | cons b rest ih =>
    have hsz : repSize (b :: rest) = b.size + EL_BLOCK_OVERHEAD + repSize rest := rfl
    have hov : EL_BLOCK_OVERHEAD = 40 := rfl
    by_cases hb : b.isAvail
    · simp only [availAddrs, hb, if_true, List.mem_cons] at h
      rcases h with h | h
      · omega
      · have := ih h; omega
    · simp only [availAddrs, hb, if_false, Bool.false_eq_true] at h
      have := ih h; omega

theorem mem_usedAddrs_bounds {a base : Nat} {rep : List RBlock}
    (h : a ∈ usedAddrs base rep) :
    base ≤ a ∧ a < base + repSize rep := by
  induction rep generalizing base with
  | nil => simp [usedAddrs] at h
  | cons b rest ih =>
    have hsz : repSize (b :: rest) = b.size + EL_BLOCK_OVERHEAD + repSize rest := rfl
    have hov : EL_BLOCK_OVERHEAD = 40 := rfl
    by_cases hb : b.isAvail
    · simp only [usedAddrs, hb, if_true] at h
      have := ih h; omega
    · simp only [usedAddrs, hb, if_false, Bool.false_eq_true, List.mem_cons] at h
      rcases h with h | h
      · omega
      · have := ih h; omega

theorem not_mem_availAddrs_ge {a base : Nat} {rep : List RBlock}
    (h : base + repSize rep ≤ a) : a ∉ availAddrs base rep := by
  intro hm
  have := (mem_availAddrs_bounds hm).2
  omega

theorem not_mem_usedAddrs_ge {a base : Nat} {rep : List RBlock}
    (h : base + repSize rep ≤ a) : a ∉ usedAddrs base rep := by
  intro hm
  have := (mem_usedAddrs_bounds hm).2
  omega

theorem availAddrs_nodup (base : Nat) (rep : List RBlock) :
    (availAddrs base rep).Nodup := by
  induction rep generalizing base with
  | nil => simp [availAddrs]
  | cons b rest ih =>
    by_cases hb : b.isAvail
    · simp only [availAddrs, hb, if_true, List.nodup_cons]
      refine ⟨?_, ih _⟩
      intro hm
      have h1 := (mem_availAddrs_bounds hm).1
      have hov : EL_BLOCK_OVERHEAD = 40 := rfl
      omega
    · simp only [availAddrs, hb, if_false, Bool.false_eq_true]
      exact ih _

theorem mem_availAddrs_decomp {a base : Nat} {rep : List RBlock}
    (h : a ∈ availAddrs base rep) :
    ∃ pre blk post, rep = pre ++ blk :: post ∧ blk.isAvail = true
      ∧ a = base + repSize pre := by
  induction rep generalizing base with
  | nil => simp [availAddrs] at h
  | cons b rest ih =>
    by_cases hb : b.isAvail
    · simp only [availAddrs, hb, if_true, List.mem_cons] at h
      rcases h with h | h
      · exact ⟨[], b, rest, rfl, hb, by simp [repSize, h]⟩
      · obtain ⟨pre, blk, post, hrep, hav, ha⟩ := ih h
        refine ⟨b :: pre, blk, post, by simp [hrep], hav, ?_⟩
        simp [repSize, ha]; omega
    · simp only [availAddrs, hb, if_false, Bool.false_eq_true] at h
      obtain ⟨pre, blk, post, hrep, hav, ha⟩ := ih h
      refine ⟨b :: pre, blk, post, by simp [hrep], hav, ?_⟩
      simp [repSize, ha]; omega

theorem mem_usedAddrs_decomp {a base : Nat} {rep : List RBlock}
    (h : a ∈ usedAddrs base rep) :
    ∃ pre blk post, rep = pre ++ blk :: post ∧ blk.isAvail = false
      ∧ a = base + repSize pre := by
  induction rep generalizing base with
  | nil => simp [usedAddrs] at h
  | cons b rest ih =>
    by_cases hb : b.isAvail
    · simp only [usedAddrs, hb, if_true] at h
      obtain ⟨pre, blk, post, hrep, hav, ha⟩ := ih h
      refine ⟨b :: pre, blk, post, by simp [hrep], hav, ?_⟩
      simp [repSize, ha]; omega
    · simp only [usedAddrs, hb, if_false, Bool.false_eq_true, List.mem_cons] at h
      rcases h with h | h
      · exact ⟨[], b, rest, rfl, by simpa using hb, by simp [repSize, h]⟩
      · obtain ⟨pre, blk, post, hrep, hav, ha⟩ := ih h
        refine ⟨b :: pre, blk, post, by simp [hrep], hav, ?_⟩
        simp [repSize, ha]; omega

theorem repAvailBytes_append (l1 l2 : List RBlock) :
    repAvailBytes (l1 ++ l2) = repAvailBytes l1 + repAvailBytes l2 := by
  induction l1 with
  | nil => simp [repAvailBytes]
  | cons b rest ih => simp [repAvailBytes, ih]; omega

theorem repUsedBytes_append (l1 l2 : List RBlock) :
    repUsedBytes (l1 ++ l2) = repUsedBytes l1 + repUsedBytes l2 := by
  induction l1 with
  | nil => simp [repUsedBytes]
  | cons b rest ih => simp [repUsedBytes, ih]; omega

theorem repAvailBytes_add_repUsedBytes (rep : List RBlock) :
    repAvailBytes rep + repUsedBytes rep = repSize rep := by
  induction rep with
  | nil => simp [repAvailBytes, repUsedBytes, repSize]
  | cons b rest ih =>
    by_cases hb : b.isAvail
    · simp [repAvailBytes, repUsedBytes, repSize, hb]; omega
    · simp [repAvailBytes, repUsedBytes, repSize, hb]; omega

/-!
Simulation lemmas: each allocator operation corresponds to a transformation
of the abstract block sequence.
-/

theorem el_init_models {S : Nat} {st : CtlState} (h : el_init S = some st) :
    Models st [⟨S - EL_BLOCK_OVERHEAD, true⟩] ∧ st.heap_bytes = S := by
  unfold el_init at h
  by_cases hc : S < EL_BLOCK_OVERHEAD
  · simp [hc] at h
  · simp only [hc, if_false, Option.some.injEq] at h
    subst h
    have hov : EL_BLOCK_OVERHEAD = 40 := rfl
    refine ⟨⟨?_, ?_, ?_, ?_, ?_, ?_, ?_, ?_⟩, rfl⟩
    · refine ⟨?_, ?_, trivial⟩
      · simp [writeHead_same]
      · simp only [el_get_footer, writeHead_same]
        exact writeFoot_same _ _ _
    · simp [repSize]; omega
    · simp [el_add_block_front, el_init_blocklist, availAddrs]
    · rfl
    · simp only [el_add_block_front, el_init_blocklist, writeHead_same, repAvailBytes]
      simp
    · simp [el_init_blocklist, usedAddrs]
    · rfl
    · simp [el_init_blocklist, repUsedBytes]


theorem el_malloc_models {st : CtlState} {pre post : List RBlock} {blk : RBlock} {n : Nat}
    (M : Models st (pre ++ blk :: post)) (hav : blk.isAvail = true)
    (hfind : el_find_first_avail st n = some (repSize pre)) :
    (el_malloc st n).2 = some (repSize pre + sizeofHead) ∧
    Models (el_malloc st n).1
      (pre ++ (⟨n, false⟩ : RBlock) :: (⟨blk.size - n - EL_BLOCK_OVERHEAD, true⟩ : RBlock) :: post) := by
  obtain ⟨hmem, hszst⟩ := find_first_avail_some hfind
  have htiles := M.tiles
  rw [tilesSeg_append] at htiles
  obtain ⟨T1, T2⟩ := htiles
  simp only [Nat.zero_add] at T2
  obtain ⟨hhead, hfoot, T3⟩ := tilesSeg_cons.1 T2
  have hsize : (st.heads (repSize pre)).size = blk.size := by rw [hhead]
  have hS : n + EL_BLOCK_OVERHEAD ≤ blk.size := by rw [← hsize]; exact hszst
  have heq := el_malloc_found st n (repSize pre) hfind hszst
  have hov : EL_BLOCK_OVERHEAD = 40 := rfl
  have hhd : sizeofHead = 32 := rfl
  have hH : ∀ a, a < repSize pre ∨ repSize pre + blk.size + EL_BLOCK_OVERHEAD ≤ a →
      (writeHead
        (writeHead
          (setHeadSize (setHeadSize st.heads (repSize pre) n)
            (repSize pre + n + EL_BLOCK_OVERHEAD)
            ((st.heads (repSize pre)).size - n - EL_BLOCK_OVERHEAD))
          (repSize pre) ⟨n, BlockState.used⟩)
        (repSize pre + n + EL_BLOCK_OVERHEAD)
        ⟨(st.heads (repSize pre)).size - n - EL_BLOCK_OVERHEAD, BlockState.available⟩) a
      = st.heads a := by
    intro a ha
    simp only [writeHead, setHeadSize]
    rw [if_neg (by omega), if_neg (by omega), if_neg (by omega), if_neg (by omega)]
  have hF : ∀ a, a < repSize pre ∨ repSize pre + blk.size + EL_BLOCK_OVERHEAD ≤ a →
      (writeFoot (writeFoot st.foots (repSize pre + sizeofHead + n) n)
        (repSize pre + sizeofHead + (st.heads (repSize pre)).size)
        ((st.heads (repSize pre)).size - n - EL_BLOCK_OVERHEAD)) a
      = st.foots a := by
    intro a ha
    simp only [writeFoot]
    rw [if_neg (by omega), if_neg (by omega)]
  rw [heq]
  refine ⟨rfl, ?_, ?_, ?_, ?_, ?_, ?_, ?_, ?_⟩
  · -- tiles
    rw [tilesSeg_append]
    refine ⟨?_, ?_⟩
    · exact tilesSeg_congr
        (fun a h1 h2 => hH a (Or.inl (by omega)))
        (fun a h1 h2 => hF a (Or.inl (by omega))) T1
    · simp only [Nat.zero_add]
      rw [tilesSeg_cons]
      refine ⟨?_, ?_, ?_⟩
      · rw [writeHead_other _ _ (by omega :
            repSize pre ≠ repSize pre + n + EL_BLOCK_OVERHEAD), writeHead_same]
        simp
      · rw [writeFoot_other _ _ (by omega :
            repSize pre + sizeofHead + n
              ≠ repSize pre + sizeofHead + (st.heads (repSize pre)).size),
          writeFoot_same]
      · rw [tilesSeg_cons]
        refine ⟨?_, ?_, ?_⟩
        · rw [writeHead_same]
          simp [hsize]
        · have haddr : repSize pre + n + EL_BLOCK_OVERHEAD + sizeofHead
              + (blk.size - n - EL_BLOCK_OVERHEAD)
              = repSize pre + sizeofHead + (st.heads (repSize pre)).size := by omega
          rw [haddr, writeFoot_same]
          show (st.heads (repSize pre)).size - n - EL_BLOCK_OVERHEAD
            = blk.size - n - EL_BLOCK_OVERHEAD
          omega
        · have hbase : repSize pre + n + EL_BLOCK_OVERHEAD
              + (blk.size - n - EL_BLOCK_OVERHEAD) + EL_BLOCK_OVERHEAD
              = repSize pre + blk.size + EL_BLOCK_OVERHEAD := by omega
          rw [hbase]
          exact tilesSeg_congr
            (fun a h1 h2 => hH a (Or.inr (by omega)))
            (fun a h1 h2 => hF a (Or.inr (by omega))) T3
  · -- total
    have ht := M.total
    rw [repSize_append] at ht
    rw [repSize_append]
    simp only [repSize] at ht ⊢
    omega
  · -- avail_perm
    have hA := M.avail_perm
    rw [availAddrs_append] at hA
    simp only [Nat.zero_add, availAddrs, hav, if_true] at hA
    have hnotmem : repSize pre ∉ availAddrs 0 pre :=
      not_mem_availAddrs_ge (by omega)
    have hA2 := hA.erase (repSize pre)
    rw [List.erase_append_right _ hnotmem, List.erase_cons_head] at hA2
    rw [availAddrs_append]
    simp only [Nat.zero_add, availAddrs, if_true, if_false, Bool.false_eq_true]
    have hbase : repSize pre + n + EL_BLOCK_OVERHEAD
        + (blk.size - n - EL_BLOCK_OVERHEAD) + EL_BLOCK_OVERHEAD
        = repSize pre + blk.size + EL_BLOCK_OVERHEAD := by omega
    rw [hbase]
    exact (hA2.cons (repSize pre + n + EL_BLOCK_OVERHEAD)).trans List.perm_middle.symm
  · -- avail_len
    have h1 := List.length_erase_of_mem hmem
    have h2 := M.avail_len
    simp only [List.length_cons, h1, h2]
  · -- avail_bytes
    have hB := M.avail_bytes
    rw [repAvailBytes_append] at hB
    rw [repAvailBytes_append]
    simp only [repAvailBytes, hav, if_true, if_false, Bool.false_eq_true] at hB ⊢
    omega
  · -- used_perm
    have hU := M.used_perm
    rw [usedAddrs_append] at hU
    simp only [Nat.zero_add, usedAddrs, hav, if_true] at hU
    rw [usedAddrs_append]
    simp only [Nat.zero_add, usedAddrs, if_true, if_false, Bool.false_eq_true]
    have hbase : repSize pre + n + EL_BLOCK_OVERHEAD
        + (blk.size - n - EL_BLOCK_OVERHEAD) + EL_BLOCK_OVERHEAD
        = repSize pre + blk.size + EL_BLOCK_OVERHEAD := by omega
    rw [hbase]
    exact (hU.cons (repSize pre)).trans List.perm_middle.symm
  · -- used_len
    have h2 := M.used_len
    simp only [List.length_cons, h2]
  · -- used_bytes
    have hB := M.used_bytes
    rw [repUsedBytes_append] at hB
    rw [repUsedBytes_append]
    simp only [repUsedBytes, hav, if_true, if_false, Bool.false_eq_true] at hB ⊢
    omega


theorem el_block_below_zero_addr (st : CtlState) : el_block_below st 0 = none := by
  simp [el_block_below]

theorem el_block_below_models {st : CtlState} {pre post : List RBlock} {lo blk : RBlock}
    (M : Models st (pre ++ lo :: blk :: post)) :
    el_block_below st (repSize (pre ++ [lo])) = some (repSize pre) := by
  have hov : EL_BLOCK_OVERHEAD = 40 := rfl
  have hhd : sizeofHead = 32 := rfl
  have hft : sizeofFoot = 8 := rfl
  have htiles := M.tiles
  rw [tilesSeg_append] at htiles
  obtain ⟨T1, T2⟩ := htiles
  simp only [Nat.zero_add] at T2
  obtain ⟨hh1, hf1, T3⟩ := tilesSeg_cons.1 T2
  have hrs : repSize (pre ++ [lo]) = repSize pre + lo.size + EL_BLOCK_OVERHEAD := by
    rw [repSize_append]; simp [repSize]; omega
  have hne : ¬(repSize (pre ++ [lo]) = 0) := by omega
  unfold el_block_below
  rw [if_neg hne]
  have haddr : repSize (pre ++ [lo]) - sizeofFoot
      = repSize pre + sizeofHead + lo.size := by omega
  rw [haddr]
  unfold el_get_header
  rw [hf1]
  congr 1
  omega

theorem el_merge_models {st : CtlState} {pre post : List RBlock} {b1 b2 : RBlock}
    (M : Models st (pre ++ b1 :: b2 :: post))
    (h1 : b1.isAvail = true) (h2 : b2.isAvail = true) :
    Models (el_merge_block_with_above st (some (repSize pre)))
      (pre ++ (⟨b1.size + b2.size + EL_BLOCK_OVERHEAD, true⟩ : RBlock) :: post) := by
  have hov : EL_BLOCK_OVERHEAD = 40 := rfl
  have hhd : sizeofHead = 32 := rfl
  have htiles := M.tiles
  rw [tilesSeg_append] at htiles
  obtain ⟨T1, T2⟩ := htiles
  simp only [Nat.zero_add] at T2
  obtain ⟨hh1, hf1, T2'⟩ := tilesSeg_cons.1 T2
  obtain ⟨hh2, hf2, T3⟩ := tilesSeg_cons.1 T2'
  rw [h1, if_pos rfl] at hh1
  rw [h2, if_pos rfl] at hh2
  have hsz1 : (st.heads (repSize pre)).size = b1.size := by rw [hh1]
  have htot := M.total
  rw [repSize_append] at htot
  simp only [repSize] at htot
  have habove : el_block_above st (repSize pre)
      = some (repSize pre + b1.size + EL_BLOCK_OVERHEAD) := by
    have hlt : repSize pre + (st.heads (repSize pre)).size + EL_BLOCK_OVERHEAD
        < st.heap_bytes := by omega
    have h := el_block_above_of_lt hlt
    rw [hsz1] at h
    exact h
  have hlo : ¬((st.heads (repSize pre)).state = BlockState.used) := by
    rw [hh1]; simp
  have hhi : ¬((st.heads (repSize pre + b1.size + EL_BLOCK_OVERHEAD)).state
      = BlockState.used) := by
    rw [hh2]; simp
  have heq := el_merge_yes st (repSize pre) (repSize pre + b1.size + EL_BLOCK_OVERHEAD)
    hlo habove hhi
  rw [heq]
  have hsz2 : (st.heads (repSize pre + b1.size + EL_BLOCK_OVERHEAD)).size = b2.size := by
    rw [hh2]
  have hA := M.avail_perm
  rw [availAddrs_append] at hA
  simp only [Nat.zero_add, availAddrs, h1, h2, if_true] at hA
  have hmem1 : repSize pre ∈ st.avail.blocks := hA.mem_iff.2 (by simp)
  have hnotmem : repSize pre ∉ availAddrs 0 pre := not_mem_availAddrs_ge (by omega)
  have hA2 := hA.erase (repSize pre)
  rw [List.erase_append_right _ hnotmem, List.erase_cons_head] at hA2
  have hmem2 : repSize pre + b1.size + EL_BLOCK_OVERHEAD
      ∈ st.avail.blocks.erase (repSize pre) := hA2.mem_iff.2 (by simp)
  have hnotmem2 : repSize pre + b1.size + EL_BLOCK_OVERHEAD ∉ availAddrs 0 pre :=
    not_mem_availAddrs_ge (by omega)
  have hA3 := hA2.erase (repSize pre + b1.size + EL_BLOCK_OVERHEAD)
  rw [List.erase_append_right _ hnotmem2, List.erase_cons_head] at hA3
  refine ⟨?_, ?_, ?_, ?_, ?_, ?_, ?_, ?_⟩
  · rw [tilesSeg_append]
    refine ⟨?_, ?_⟩
    · refine tilesSeg_congr (fun a ha hb => ?_) (fun a ha hb => ?_) T1
      · exact writeHead_other _ _ (by omega)
      · exact writeFoot_other _ _ (by omega)
    · simp only [Nat.zero_add]
      rw [tilesSeg_cons]
      refine ⟨?_, ?_, ?_⟩
      · rw [writeHead_same, hsz1, hsz2, hh1]
        simp
      · have haddr : repSize pre + sizeofHead + (b1.size + b2.size + EL_BLOCK_OVERHEAD)
            = repSize pre + b1.size + EL_BLOCK_OVERHEAD + sizeofHead
              + (st.heads (repSize pre + b1.size + EL_BLOCK_OVERHEAD)).size := by omega
        rw [haddr, writeFoot_same]
        show (st.heads (repSize pre)).size
            + (st.heads (repSize pre + b1.size + EL_BLOCK_OVERHEAD)).size
            + EL_BLOCK_OVERHEAD
          = b1.size + b2.size + EL_BLOCK_OVERHEAD
        omega
      · have hbase : repSize pre + (b1.size + b2.size + EL_BLOCK_OVERHEAD)
            + EL_BLOCK_OVERHEAD
            = repSize pre + b1.size + EL_BLOCK_OVERHEAD + b2.size
              + EL_BLOCK_OVERHEAD := by omega
        rw [hbase]
        refine tilesSeg_congr (fun a ha hb => ?_) (fun a ha hb => ?_) T3
        · exact writeHead_other _ _ (by omega)
        · exact writeFoot_other _ _ (by omega)
  · rw [repSize_append]
    simp only [repSize]
    omega
  · rw [availAddrs_append]
    simp only [Nat.zero_add, availAddrs, if_true]
    have hbase : repSize pre + (b1.size + b2.size + EL_BLOCK_OVERHEAD)
        + EL_BLOCK_OVERHEAD
        = repSize pre + b1.size + EL_BLOCK_OVERHEAD + b2.size
          + EL_BLOCK_OVERHEAD := by omega
    rw [hbase]
    exact (hA3.cons (repSize pre)).trans List.perm_middle.symm
  · have l1 := List.length_erase_of_mem hmem1
    have l2 := List.length_erase_of_mem hmem2
    have hlen := M.avail_len
    simp only [List.length_cons, l1, l2, hlen]
  · have hB := M.avail_bytes
    rw [repAvailBytes_append] at hB
    rw [repAvailBytes_append]
    simp only [repAvailBytes, h1, h2, if_true] at hB ⊢
    omega
  · have hU := M.used_perm
    rw [usedAddrs_append] at hU
    simp only [Nat.zero_add, usedAddrs, h1, h2, if_true] at hU
    rw [usedAddrs_append]
    simp only [Nat.zero_add, usedAddrs, if_true]
    have hbase : repSize pre + (b1.size + b2.size + EL_BLOCK_OVERHEAD)
        + EL_BLOCK_OVERHEAD
        = repSize pre + b1.size + EL_BLOCK_OVERHEAD + b2.size
          + EL_BLOCK_OVERHEAD := by omega
    rw [hbase]
    exact hU
  · exact M.used_len
  · have hB := M.used_bytes
    rw [repUsedBytes_append] at hB
    rw [repUsedBytes_append]
    simp only [repUsedBytes, h1, h2, if_true] at hB ⊢
    omega


theorem freeStep_models {st : CtlState} {pre post : List RBlock} {blk : RBlock}
    (M : Models st (pre ++ blk :: post)) (hused : blk.isAvail = false) :
    Models (freeStep st (repSize pre)) (pre ++ (⟨blk.size, true⟩ : RBlock) :: post) := by
  have hov : EL_BLOCK_OVERHEAD = 40 := rfl
  have hhd : sizeofHead = 32 := rfl
  have htiles := M.tiles
  rw [tilesSeg_append] at htiles
  obtain ⟨T1, T2⟩ := htiles
  simp only [Nat.zero_add] at T2
  obtain ⟨hh1, hf1, T3⟩ := tilesSeg_cons.1 T2
  rw [hused] at hh1
  simp only [Bool.false_eq_true, if_false] at hh1
  have hsz : (st.heads (repSize pre)).size = blk.size := by rw [hh1]
  have hU := M.used_perm
  rw [usedAddrs_append] at hU
  simp only [Nat.zero_add, usedAddrs, hused, Bool.false_eq_true, if_false] at hU
  have hmemU : repSize pre ∈ st.used.blocks := hU.mem_iff.2 (by simp)
  have hnotmemU : repSize pre ∉ usedAddrs 0 pre := not_mem_usedAddrs_ge (by omega)
  have hU2 := hU.erase (repSize pre)
  rw [List.erase_append_right _ hnotmemU, List.erase_cons_head] at hU2
  simp only [freeStep]
  refine ⟨?_, ?_, ?_, ?_, ?_, ?_, ?_, ?_⟩
  · rw [tilesSeg_append]
    refine ⟨?_, ?_⟩
    · refine tilesSeg_congr (fun a ha hb => ?_) (fun a ha hb => rfl) T1
      exact writeHead_other _ _ (by omega)
    · simp only [Nat.zero_add]
      rw [tilesSeg_cons]
      refine ⟨?_, ?_, ?_⟩
      · show writeHead st.heads (repSize pre)
            ⟨(st.heads (repSize pre)).size, BlockState.available⟩ (repSize pre) = _
        rw [writeHead_same, hsz]
        simp
      · show st.foots (repSize pre + sizeofHead + blk.size) = blk.size
        exact hf1
      · refine tilesSeg_congr (fun a ha hb => ?_) (fun a ha hb => rfl) T3
        exact writeHead_other _ _ (by omega)
  · have ht := M.total
    rw [repSize_append] at ht
    rw [repSize_append]
    simp only [repSize] at ht ⊢
    omega
  · have hA := M.avail_perm
    rw [availAddrs_append] at hA
    simp only [Nat.zero_add, availAddrs, hused, Bool.false_eq_true, if_false] at hA
    rw [availAddrs_append]
    simp only [Nat.zero_add, availAddrs, if_true]
    exact (hA.cons (repSize pre)).trans List.perm_middle.symm
  · have hl := M.avail_len
    simp only [List.length_cons, hl]
  · have hB := M.avail_bytes
    rw [repAvailBytes_append] at hB
    rw [repAvailBytes_append]
    simp only [repAvailBytes, hused, Bool.false_eq_true, if_false, if_true] at hB ⊢
    omega
  · rw [usedAddrs_append]
    simp only [Nat.zero_add, usedAddrs, if_true]
    exact hU2
  · have hl := M.used_len
    have l1 := List.length_erase_of_mem hmemU
    simp only [l1, hl]
  · have hB := M.used_bytes
    rw [repUsedBytes_append] at hB
    rw [repUsedBytes_append]
    simp only [repUsedBytes, hused, Bool.false_eq_true, if_false, if_true] at hB ⊢
    omega


theorem models_head {st : CtlState} {pre post : List RBlock} {blk : RBlock}
    (M : Models st (pre ++ blk :: post)) :
    st.heads (repSize pre)
      = ⟨blk.size, if blk.isAvail then BlockState.available else BlockState.used⟩ := by
  have htiles := M.tiles
  rw [tilesSeg_append] at htiles
  obtain ⟨_, T2⟩ := htiles
  simp only [Nat.zero_add] at T2
  exact (tilesSeg_cons.1 T2).1

theorem free_below_phase {st4 : CtlState} {pre post2 : List RBlock} {mid : RBlock}
    (M4 : Models st4 (pre ++ mid :: post2)) (hmid : mid.isAvail = true) :
    Models (el_merge_block_with_above st4 (el_block_below st4 (repSize pre)))
      (repFreeLower pre mid post2) := by
  rcases List.eq_nil_or_concat pre with rfl | ⟨pre', lo, rfl⟩
  · have h0 : repSize ([] : List RBlock) = 0 := rfl
    rw [h0, el_block_below_zero_addr, el_merge_none]
    simpa [repFreeLower] using M4
  · simp only [List.concat_eq_append] at M4 ⊢
    have hassoc : (pre' ++ [lo]) ++ mid :: post2 = pre' ++ lo :: mid :: post2 := by simp
    rw [hassoc] at M4
    have hbelow := el_block_below_models M4
    rw [hbelow]
    simp only [repFreeLower, List.getLast?_concat, List.dropLast_concat]
    by_cases hlo : lo.isAvail
    · rw [if_pos hlo]
      have := el_merge_models M4 hlo hmid
      simpa using this
    · rw [if_neg hlo]
      have hstate : (st4.heads (repSize pre')).state = BlockState.used := by
        rw [models_head M4]
        simp [hlo]
      rw [el_merge_lower_used st4 (repSize pre') hstate]
      rw [← hassoc] at M4
      exact M4

theorem el_free_models {st : CtlState} {pre post : List RBlock} {blk : RBlock}
    (M : Models st (pre ++ blk :: post)) (hused : blk.isAvail = false) :
    Models (el_free st (repSize pre + sizeofHead)) (repFree pre blk post) := by
  have hov : EL_BLOCK_OVERHEAD = 40 := rfl
  have hhd : sizeofHead = 32 := rfl
  have hh1 := models_head M
  rw [hused] at hh1
  simp only [Bool.false_eq_true, if_false] at hh1
  have hsub : repSize pre + sizeofHead - sizeofHead = repSize pre := by omega
  have hguard : ¬((st.heads (repSize pre + sizeofHead - sizeofHead)).state
      = BlockState.available) := by
    rw [hsub, hh1]; simp
  rw [el_free_used_eq st _ hguard, hsub]
  have M3 := freeStep_models M hused
  cases post with
  | nil =>
    have hh3 := models_head M3
    simp only [if_pos] at hh3
    have habove : el_block_above (freeStep st (repSize pre)) (repSize pre) = none := by
      apply el_block_above_of_end
      have htot := M3.total
      rw [repSize_append] at htot
      simp only [repSize] at htot
      rw [hh3]
      show (freeStep st (repSize pre)).heap_bytes
        ≤ repSize pre + blk.size + EL_BLOCK_OVERHEAD
      omega
    rw [el_merge_no_above _ _ habove]
    have hfinal := free_below_phase M3 rfl
    simpa [repFree, repFreeUpper] using hfinal
  | cons hi post' =>
    by_cases hhi : hi.isAvail
    · have M4 := el_merge_models M3 rfl hhi
      have hfinal := free_below_phase M4 rfl
      simp only [repFree, repFreeUpper, hhi, if_pos]
      simpa using hfinal
    · -- upper neighbour used: first merge is a no-op
      have hh3 := models_head M3
      simp only [if_pos] at hh3
      have habove : el_block_above (freeStep st (repSize pre)) (repSize pre)
          = some (repSize pre + blk.size + EL_BLOCK_OVERHEAD) := by
        have htot := M3.total
        rw [repSize_append] at htot
        simp only [repSize] at htot
        have hlt : repSize pre
            + ((freeStep st (repSize pre)).heads (repSize pre)).size
            + EL_BLOCK_OVERHEAD < (freeStep st (repSize pre)).heap_bytes := by
          rw [hh3]
          show repSize pre + blk.size + EL_BLOCK_OVERHEAD
            < (freeStep st (repSize pre)).heap_bytes
          omega
        have h := el_block_above_of_lt hlt
        rw [hh3] at h
        exact h
      have hhiaddr : ((freeStep st (repSize pre)).heads
          (repSize pre + blk.size + EL_BLOCK_OVERHEAD)).state = BlockState.used := by
        have hassoc : pre ++ (⟨blk.size, true⟩ : RBlock) :: hi :: post'
            = (pre ++ [(⟨blk.size, true⟩ : RBlock)]) ++ hi :: post' := by simp
        rw [hassoc] at M3
        have := models_head M3
        rw [repSize_append] at this
        simp only [repSize] at this
        have haddr : repSize pre + (blk.size + EL_BLOCK_OVERHEAD + 0)
            = repSize pre + blk.size + EL_BLOCK_OVERHEAD := by omega
        rw [haddr] at this
        rw [this]
        simp [hhi]
      rw [el_merge_higher_used _ _ _ habove hhiaddr]
      have hfinal := free_below_phase M3 rfl
      simp only [repFree, repFreeUpper, hhi, Bool.false_eq_true, if_false]
      simpa using hfinal

/-! Preservation of the no-adjacent-available invariant. -/

theorem repFreeUpper_fst_avail (blk : RBlock) (post : List RBlock) :
    (repFreeUpper blk post).1.isAvail = true := by
  cases post with
  | nil => rfl
  | cons hi post' =>
    by_cases hhi : hi.isAvail
    · simp [repFreeUpper, hhi]
    · simp [repFreeUpper, hhi]

theorem noAdjAvail_upper {post : List RBlock} {blk : RBlock}
    (h : NoAdjAvail (blk :: post)) :
    NoAdjAvail ((repFreeUpper blk post).1 :: (repFreeUpper blk post).2) := by
  cases post with
  | nil => simp [repFreeUpper, NoAdjAvail]
  | cons hi post' =>
    unfold NoAdjAvail at *
    rw [List.chain'_cons] at h
    obtain ⟨_, h2⟩ := h
    by_cases hhi : hi.isAvail
    · simp only [repFreeUpper, hhi, if_pos]
      rw [List.chain'_cons'] at h2 ⊢
      obtain ⟨h2a, h2b⟩ := h2
      refine ⟨?_, h2b⟩
      intro y hy
      have := h2a y hy
      simp [hhi] at this
      simp [this]
    · simp only [repFreeUpper, hhi, Bool.false_eq_true, if_false]
      rw [List.chain'_cons]
      exact ⟨by simp [hhi], h2⟩

theorem noAdjAvail_lower {pre post2 : List RBlock} {m : RBlock}
    (hm : m.isAvail = true)
    (hpre : NoAdjAvail pre)
    (hmid : NoAdjAvail (m :: post2)) :
    NoAdjAvail (repFreeLower pre m post2) := by
  rcases List.eq_nil_or_concat pre with rfl | ⟨pre', lo, rfl⟩
  · simpa [repFreeLower] using hmid
  · simp only [List.concat_eq_append, repFreeLower, List.getLast?_concat,
      List.dropLast_concat]
    unfold NoAdjAvail at *
    simp only [List.concat_eq_append] at hpre
    rw [List.chain'_append] at hpre
    obtain ⟨hp1, _, hp3⟩ := hpre
    by_cases hlo : lo.isAvail
    · rw [if_pos hlo]
      rw [List.chain'_append]
      refine ⟨hp1, ?_, ?_⟩
      · rw [List.chain'_cons'] at hmid ⊢
        obtain ⟨ha, hb⟩ := hmid
        refine ⟨?_, hb⟩
        intro y hy
        have := ha y hy
        simp [hm] at this
        simp [this]
      · intro x hx y hy
        simp only [List.head?_cons, Option.mem_def, Option.some.injEq] at hy
        subst hy
        have := hp3 x hx lo (by simp)
        simp [hlo] at this
        simp [this]
    · rw [if_neg hlo]
      rw [List.chain'_append]
      refine ⟨?_, hmid, ?_⟩
      · rw [List.chain'_append]
        exact ⟨hp1, List.chain'_singleton _, hp3⟩
      · intro x hx y hy
        simp only [List.getLast?_concat, Option.mem_def, Option.some.injEq] at hx
        subst hx
        simp [hlo]

theorem noAdjAvail_repFree {pre post : List RBlock} {blk : RBlock}
    (h : NoAdjAvail (pre ++ blk :: post)) :
    NoAdjAvail (repFree pre blk post) := by
  unfold NoAdjAvail at h
  rw [List.chain'_append] at h
  obtain ⟨h1, h2, _⟩ := h
  exact noAdjAvail_lower (repFreeUpper_fst_avail blk post) h1 (noAdjAvail_upper h2)

theorem noAdjAvail_malloc {pre post : List RBlock} {blk : RBlock} (n rem : Nat)
    (h : NoAdjAvail (pre ++ blk :: post)) (hav : blk.isAvail = true) :
    NoAdjAvail (pre ++ (⟨n, false⟩ : RBlock) :: (⟨rem, true⟩ : RBlock) :: post) := by
  unfold NoAdjAvail at *
  rw [List.chain'_append] at h ⊢
  obtain ⟨h1, h2, h3⟩ := h
  refine ⟨h1, ?_, ?_⟩
  · rw [List.chain'_cons]
    refine ⟨by simp, ?_⟩
    rw [List.chain'_cons'] at h2 ⊢
    obtain ⟨h2a, h2b⟩ := h2
    refine ⟨?_, h2b⟩
    intro y hy
    have := h2a y hy
    simp [hav] at this
    simp [this]
  · intro x hx y hy
    simp only [List.head?_cons, Option.mem_def, Option.some.injEq] at hy
    subst hy
    simp


theorem el_malloc_none {st : CtlState} {n : Nat}
    (h : el_find_first_avail st n = none) : el_malloc st n = (st, none) := by
  simp [el_malloc, h]

theorem el_free_avail_noop {st : CtlState} {p : Nat}
    (h : (st.heads (p - sizeofHead)).state = BlockState.available) :
    el_free st p = st := by
  unfold el_free
  simp [h]

theorem el_free_depends_only_on_block (st : CtlState) (p q : Nat)
    (h : p - sizeofHead = q - sizeofHead) : el_free st p = el_free st q := by
  unfold el_free
  rw [h]

/-- Every reachable state is described by some abstract block sequence, and
that sequence never has two adjacent available blocks. -/
theorem reach_models {st : CtlState} (h : Reach st) :
    ∃ rep, Models st rep ∧ NoAdjAvail rep := by
  induction h with
  | init S st hinit =>
    refine ⟨[⟨S - EL_BLOCK_OVERHEAD, true⟩], (el_init_models hinit).1, ?_⟩
    exact List.chain'_singleton _
  | malloc st n hr ih =>
    obtain ⟨rep, M, NA⟩ := ih
    cases hfind : el_find_first_avail st n with
    | none =>
      rw [el_malloc_none hfind]
      exact ⟨rep, M, NA⟩
    | some b =>
      have hmem := (find_first_avail_some hfind).1
      have hmemA : b ∈ availAddrs 0 rep := (M.avail_perm.mem_iff).1 hmem
      obtain ⟨pre, blk, post, hrep, hav, ha⟩ := mem_availAddrs_decomp hmemA
      subst hrep
      simp only [Nat.zero_add] at ha
      subst ha
      obtain ⟨_, M'⟩ := el_malloc_models M hav hfind
      exact ⟨_, M', noAdjAvail_malloc _ _ NA hav⟩
  | free st p hr hvalid ih =>
    obtain ⟨rep, M, NA⟩ := ih
    rcases hvalid with hmem | havail
    · have hmemU : (p - sizeofHead) ∈ usedAddrs 0 rep := (M.used_perm.mem_iff).1 hmem
      obtain ⟨pre, blk, post, hrep, hused, ha⟩ := mem_usedAddrs_decomp hmemU
      subst hrep
      simp only [Nat.zero_add] at ha
      have hpq : p - sizeofHead = (repSize pre + sizeofHead) - sizeofHead := by
        have : sizeofHead = 32 := rfl
        omega
      rw [el_free_depends_only_on_block st p (repSize pre + sizeofHead) hpq]
      exact ⟨_, el_free_models M hused, noAdjAvail_repFree NA⟩
    · rw [el_free_avail_noop havail]
      exact ⟨rep, M, NA⟩


theorem availAddrs_eq_nil {base : Nat} {l : List RBlock}
    (h : availAddrs base l = []) : ∀ x ∈ l, x.isAvail = false := by
  induction l generalizing base with
  | nil => intro x hx; simp at hx
  | cons b rest ih =>
    intro x hx
    by_cases hb : b.isAvail
    · simp [availAddrs, hb] at h
    · simp only [availAddrs, hb, Bool.false_eq_true, if_false] at h
      rcases List.mem_cons.1 hx with rfl | hx'
      · simpa using hb
      · exact ih h x hx'

theorem sum_availAddrs {st : CtlState} {rep : List RBlock} {base : Nat}
    (T : TilesSeg st.heads st.foots base rep) :
    ((availAddrs base rep).map
      (fun a => (st.heads a).size + EL_BLOCK_OVERHEAD)).sum
      = repAvailBytes rep := by
  induction rep generalizing base with
  | nil => simp [availAddrs, repAvailBytes]
  | cons b rest ih =>
    obtain ⟨h1, _, h3⟩ := tilesSeg_cons.1 T
    by_cases hb : b.isAvail
    · simp only [availAddrs, hb, if_pos, List.map_cons, List.sum_cons,
        repAvailBytes, ih h3, h1]
    · simp only [availAddrs, repAvailBytes, hb, Bool.false_eq_true, if_false,
        ih h3, Nat.zero_add]

theorem sum_usedAddrs {st : CtlState} {rep : List RBlock} {base : Nat}
    (T : TilesSeg st.heads st.foots base rep) :
    ((usedAddrs base rep).map
      (fun a => (st.heads a).size + EL_BLOCK_OVERHEAD)).sum
      = repUsedBytes rep := by
  induction rep generalizing base with
  | nil => simp [usedAddrs, repUsedBytes]
  | cons b rest ih =>
    obtain ⟨h1, _, h3⟩ := tilesSeg_cons.1 T
    by_cases hb : b.isAvail
    · simp only [usedAddrs, repUsedBytes, hb, if_pos, ih h3, Nat.zero_add]
    · simp only [usedAddrs, hb, Bool.false_eq_true, if_false, List.map_cons,
        List.sum_cons, repUsedBytes, ih h3, h1]

theorem mem_blockAddrsFromFuel_decomp {st : CtlState} {rep : List RBlock}
    {a base fuel : Nat}
    (T : TilesSeg st.heads st.foots base rep)
    (htot : base + repSize rep = st.heap_bytes)
    (hfuel : rep.length ≤ fuel)
    (h : a ∈ blockAddrsFromFuel st fuel base) :
    ∃ pre blk post, rep = pre ++ blk :: post ∧ a = base + repSize pre := by
  induction rep generalizing base fuel with
  | nil =>
    simp only [repSize, Nat.add_zero] at htot
    cases fuel with
    | zero => simp [blockAddrsFromFuel] at h
    | succ fuel' =>
      rw [blockAddrsFromFuel, if_neg (by omega)] at h
      simp at h
  | cons b rest ih =>
    obtain ⟨h1, _, h3⟩ := tilesSeg_cons.1 T
    have hov : EL_BLOCK_OVERHEAD = 40 := rfl
    have hsz : repSize (b :: rest) = b.size + EL_BLOCK_OVERHEAD + repSize rest := rfl
    cases fuel with
    | zero => simp at hfuel
    | succ fuel' =>
      rw [blockAddrsFromFuel, if_pos (by omega)] at h
      rcases List.mem_cons.1 h with rfl | h'
      · exact ⟨[], b, rest, rfl, by simp [repSize]⟩
      · rw [h1] at h'
        have h'' : a ∈ blockAddrsFromFuel st fuel' (base + b.size + EL_BLOCK_OVERHEAD) := h'
        obtain ⟨pre, blk, post, hrep, ha⟩ :=
          ih h3 (by omega) (by simpa using hfuel) h''
        refine ⟨b :: pre, blk, post, by simp [hrep], ?_⟩
        simp [repSize, ha]
        omega

theorem repSize_ge_length (rep : List RBlock) : rep.length ≤ repSize rep := by
  induction rep with
  | nil => simp [repSize]
  | cons b rest ih =>
    have hov : EL_BLOCK_OVERHEAD = 40 := rfl
    simp only [repSize, List.length_cons]
    omega

theorem mem_blockAddrs_decomp {st : CtlState} {rep : List RBlock} {a : Nat}
    (M : Models st rep) (h : a ∈ blockAddrs st) :
    ∃ pre blk post, rep = pre ++ blk :: post ∧ a = repSize pre := by
  have hov : EL_BLOCK_OVERHEAD = 40 := rfl
  have hfuel : rep.length ≤ st.heap_bytes := by
    have htot := M.total
    have hlen := repSize_ge_length rep
    omega
  obtain ⟨pre, blk, post, hrep, ha⟩ :=
    mem_blockAddrsFromFuel_decomp M.tiles (by simpa using M.total) hfuel h
  exact ⟨pre, blk, post, hrep, by simpa using ha⟩

/-!
Claim theorems, counterexamples and witnesses.
-/

/-- C1: for every requested size `n`, `el_find_first_avail` scans the
available list from its front in current list order and returns the first
member block whose `size` field is at least `n + EL_BLOCK_OVERHEAD` (none
when no member passes the test); in particular a block whose size is at
least `n` but below `n + EL_BLOCK_OVERHEAD` is skipped. -/
theorem C1_find_first_fit (st : CtlState) (n : Nat) :
    el_find_first_avail st n
      = st.avail.blocks.find? (fun a => n + EL_BLOCK_OVERHEAD ≤ (st.heads a).size) :=
  el_find_first_avail_eq st n

/-- C3: when no available block has size at least `n + EL_BLOCK_OVERHEAD`,
`el_malloc` returns none and the entire allocator state — both lists'
links, `length` and `bytes` counters, and every block header and footer —
is returned exactly unchanged. -/
theorem C3_failed_alloc_no_mutation (st : CtlState) (n : Nat)
    (h : ∀ a ∈ st.avail.blocks, (st.heads a).size < n + EL_BLOCK_OVERHEAD) :
    el_malloc st n = (st, none) :=
  el_malloc_none (find_first_avail_none st n h)

theorem C3_witness :
    (∀ a ∈ heap0.avail.blocks, (heap0.heads a).size < 5000 + EL_BLOCK_OVERHEAD) ∧
    el_malloc heap0 5000 = (heap0, none) :=
  ⟨by decide, C3_failed_alloc_no_mutation heap0 5000 (by decide)⟩

/-- C9: for every pointer whose recovered header (the header
`sizeofHead` bytes below the pointer) is in the `Available` state,
`el_free` is a no-op: it returns the state unchanged, touching neither
list nor any header or footer. -/
theorem C9_free_available_noop (st : CtlState) (p : Nat)
    (h : (st.heads (p - sizeofHead)).state = BlockState.available) :
    el_free st p = st :=
  el_free_avail_noop h

theorem C9_witness :
    (heap0.heads (32 - sizeofHead)).state = BlockState.available ∧
    el_free heap0 32 = heap0 :=
  ⟨by decide, C9_free_available_noop heap0 32 (by decide)⟩

/-- C4 (counterexample to the claim as stated): on the 4096-byte heap,
`el_malloc 4016` finds the 4056-byte block; the remainder a split leaves
(4056 − 4016 − 40 = 0) is smaller than the overhead, yet a split occurs —
the caller receives a block of size exactly 4016, not the whole 4056-byte
block — and the remainder is a block whose size field is zero, linked into
the available list. -/
theorem C4_counterexample :
    (el_malloc heap0 4016).2 = some 32 ∧
    (heap0.heads 0).size = 4056 ∧
    (4056 : Nat) - 4016 - EL_BLOCK_OVERHEAD < EL_BLOCK_OVERHEAD ∧
    ((el_malloc heap0 4016).1.heads 0).size = 4016 ∧
    (el_malloc heap0 4016).1.avail.blocks = [4056] ∧
    ((el_malloc heap0 4016).1.heads 4056).size = 0 ∧
    ((el_malloc heap0 4016).1.heads 4056).state = BlockState.available := by
  decide

/-- C4 (amended): the fit test of `el_malloc` already demands
`size ≥ n + EL_BLOCK_OVERHEAD`, which is exactly the guard of
`el_split_block`, so whenever the search succeeds a split occurs: the
caller's block is resized to exactly `n` and a remainder block of size
`size − n − EL_BLOCK_OVERHEAD` — zero when the found block fits the
request plus overhead exactly — is created and linked to the front of the
available list. -/
theorem C4_allocate_always_splits (st : CtlState) (n b : Nat)
    (hfind : el_find_first_avail st n = some b) :
    n + EL_BLOCK_OVERHEAD ≤ (st.heads b).size ∧
    (el_malloc st n).1.heads b = ⟨n, BlockState.used⟩ ∧
    (el_malloc st n).1.heads (b + n + EL_BLOCK_OVERHEAD)
      = ⟨(st.heads b).size - n - EL_BLOCK_OVERHEAD, BlockState.available⟩ ∧
    (el_malloc st n).1.avail.blocks
      = (b + n + EL_BLOCK_OVERHEAD) :: st.avail.blocks.erase b ∧
    (el_malloc st n).2 = some (b + sizeofHead) := by
  have hsz := (find_first_avail_some hfind).2
  have heq := el_malloc_found st n b hfind hsz
  have hov : EL_BLOCK_OVERHEAD = 40 := rfl
  rw [heq]
  dsimp only
  refine ⟨hsz, ?_, ?_, rfl, rfl⟩
  · rw [writeHead_other _ _ (by omega), writeHead_same]
  · rw [writeHead_same]

theorem C4_witness :
    el_find_first_avail heap0 100 = some 0 ∧
    (100 + EL_BLOCK_OVERHEAD ≤ (heap0.heads 0).size ∧
      (el_malloc heap0 100).1.heads 0 = ⟨100, BlockState.used⟩ ∧
      (el_malloc heap0 100).1.heads (0 + 100 + EL_BLOCK_OVERHEAD)
        = ⟨(heap0.heads 0).size - 100 - EL_BLOCK_OVERHEAD, BlockState.available⟩ ∧
      (el_malloc heap0 100).1.avail.blocks
        = (0 + 100 + EL_BLOCK_OVERHEAD) :: heap0.avail.blocks.erase 0 ∧
      (el_malloc heap0 100).2 = some (0 + sizeofHead)) :=
  ⟨by decide, C4_allocate_always_splits heap0 100 0 (by decide)⟩

/-- C7 (counterexample to the claim as stated): after `el_init 4096` the
available list's `bytes` counter is 4096 — the counter includes the
per-block overhead — and not `S − overhead = 4056` as the claim states. -/
theorem C7_counterexample :
    (el_init 4096).isSome = true ∧
    heap0.avail.length = 1 ∧
    heap0.avail.bytes = 4096 ∧
    (4096 : Nat) ≠ 4096 - EL_BLOCK_OVERHEAD := by
  decide

/-- C7 (amended): for every region size `S ≥ overhead + 1`, `el_init S`
succeeds; the used list is empty, the available list has length 1 holding
the block at address 0, whose size field is `S − EL_BLOCK_OVERHEAD`, and
the available list's `bytes` counter is `S` (the counter counts
`size + EL_BLOCK_OVERHEAD` for its single member). -/
theorem C7_init_state (S : Nat) (h : EL_BLOCK_OVERHEAD + 1 ≤ S) :
    (el_init S).isSome = true ∧
    ((el_init S).getD dummyState).used.blocks = [] ∧
    ((el_init S).getD dummyState).used.length = 0 ∧
    ((el_init S).getD dummyState).used.bytes = 0 ∧
    ((el_init S).getD dummyState).avail.blocks = [0] ∧
    ((el_init S).getD dummyState).avail.length = 1 ∧
    ((el_init S).getD dummyState).avail.bytes = S ∧
    (((el_init S).getD dummyState).heads 0).size = S - EL_BLOCK_OVERHEAD ∧
    (((el_init S).getD dummyState).heads 0).state = BlockState.available := by
  have hov : EL_BLOCK_OVERHEAD = 40 := rfl
  have hc : ¬(S < EL_BLOCK_OVERHEAD) := by omega
  unfold el_init
  rw [if_neg hc]
  refine ⟨rfl, rfl, rfl, rfl, rfl, rfl, ?_, rfl, rfl⟩
  show 0 + (S - EL_BLOCK_OVERHEAD + EL_BLOCK_OVERHEAD) = S
  omega

theorem C7_witness :
    EL_BLOCK_OVERHEAD + 1 ≤ 4096 ∧
    ((el_init 4096).isSome = true ∧
      ((el_init 4096).getD dummyState).used.blocks = [] ∧
      ((el_init 4096).getD dummyState).used.length = 0 ∧
      ((el_init 4096).getD dummyState).used.bytes = 0 ∧
      ((el_init 4096).getD dummyState).avail.blocks = [0] ∧
      ((el_init 4096).getD dummyState).avail.length = 1 ∧
      ((el_init 4096).getD dummyState).avail.bytes = 4096 ∧
      (((el_init 4096).getD dummyState).heads 0).size = 4096 - EL_BLOCK_OVERHEAD ∧
      (((el_init 4096).getD dummyState).heads 0).state = BlockState.available) :=
  ⟨by decide, C7_init_state 4096 (by decide)⟩


/-- C8 (counterexample to the claim as stated): immediately after
`el_init 4096` (a reachable state), `avail.bytes + used.bytes +
EL_BLOCK_OVERHEAD × (avail.length + used.length)` is 4136, which is
neither the heap's total byte count 4096 nor its payload capacity
`4096 − overhead`: the bytes counters already include the per-block
overhead, so adding another overhead term double-counts it. -/
theorem C8_counterexample :
    (el_init 4096).isSome = true ∧
    heap0.heap_bytes = 4096 ∧
    heap0.avail.bytes + heap0.used.bytes
      + EL_BLOCK_OVERHEAD * (heap0.avail.length + heap0.used.length) = 4136 ∧
    (4136 : Nat) ≠ 4096 ∧
    (4136 : Nat) ≠ 4096 - EL_BLOCK_OVERHEAD := by
  decide

/-- C8 (amended): between any two public operations,
`avail.bytes + used.bytes` equals the heap's byte count — each list's
`bytes` counter already accounts for `EL_BLOCK_OVERHEAD` per member block,
so no further overhead term is added. -/
theorem C8_bytes_equation (st : CtlState) (hre : Reach st) :
    st.avail.bytes + st.used.bytes = st.heap_bytes := by
  obtain ⟨rep, M, _⟩ := reach_models hre
  rw [M.avail_bytes, M.used_bytes, ← M.total]
  exact repAvailBytes_add_repUsedBytes rep

theorem C8_witness :
    Reach heap0 ∧ heap0.avail.bytes + heap0.used.bytes = heap0.heap_bytes :=
  have hre : Reach heap0 := Reach.init 4096 heap0 rfl
  ⟨hre, C8_bytes_equation heap0 hre⟩

/-- C10: after `el_init` and after every completed `el_malloc` or
`el_free`, `avail.bytes + used.bytes` equals `heap_bytes`, and each list's
`bytes` counter equals the sum of `size + EL_BLOCK_OVERHEAD` over its
member blocks, so the two counters together account for every byte of the
heap. -/
theorem C10_bytes_partition (st : CtlState) (hre : Reach st) :
    st.avail.bytes + st.used.bytes = st.heap_bytes ∧
    st.avail.bytes = (st.avail.blocks.map
      (fun a => (st.heads a).size + EL_BLOCK_OVERHEAD)).sum ∧
    st.used.bytes = (st.used.blocks.map
      (fun a => (st.heads a).size + EL_BLOCK_OVERHEAD)).sum := by
  obtain ⟨rep, M, _⟩ := reach_models hre
  refine ⟨?_, ?_, ?_⟩
  · rw [M.avail_bytes, M.used_bytes, ← M.total]
    exact repAvailBytes_add_repUsedBytes rep
  · rw [M.avail_bytes, ← sum_availAddrs M.tiles]
    exact (List.Perm.sum_eq (M.avail_perm.map
      (fun a => (st.heads a).size + EL_BLOCK_OVERHEAD))).symm
  · rw [M.used_bytes, ← sum_usedAddrs M.tiles]
    exact (List.Perm.sum_eq (M.used_perm.map
      (fun a => (st.heads a).size + EL_BLOCK_OVERHEAD))).symm

/-- C2: between any two public operations, no two physically adjacent
blocks of the heap are both in the `Available` state: for every block
address `a` of the heap walk and its physical neighbour given by
`el_block_above`, the two headers are never both `Available`. -/
theorem C2_no_adjacent_available (st : CtlState) (a b : Nat)
    (hre : Reach st) (hmem : a ∈ blockAddrs st)
    (habove : el_block_above st a = some b) :
    ¬((st.heads a).state = BlockState.available ∧
      (st.heads b).state = BlockState.available) := by
  obtain ⟨rep, M, NA⟩ := reach_models hre
  obtain ⟨pre, blk, post, hrep, ha⟩ := mem_blockAddrs_decomp M hmem
  subst hrep
  subst ha
  have hh1 := models_head M
  obtain ⟨hb, hblt⟩ := el_block_above_some habove
  have hsz : (st.heads (repSize pre)).size = blk.size := by rw [hh1]
  have hov : EL_BLOCK_OVERHEAD = 40 := rfl
  cases post with
  | nil =>
    exfalso
    have htot := M.total
    rw [repSize_append] at htot
    simp only [repSize] at htot
    omega
  | cons hi post' =>
    rintro ⟨hA, hB⟩
    have hblk : blk.isAvail = true := by
      by_contra hc
      rw [hh1] at hA
      simp [hc] at hA
    have hb' : b = repSize pre + blk.size + EL_BLOCK_OVERHEAD := by omega
    have hassoc : pre ++ blk :: hi :: post' = (pre ++ [blk]) ++ hi :: post' := by simp
    rw [hassoc] at M
    have hh2 := models_head M
    rw [repSize_append] at hh2
    simp only [repSize] at hh2
    have haddr : repSize pre + (blk.size + EL_BLOCK_OVERHEAD + 0) = b := by omega
    rw [haddr] at hh2
    have hhi : hi.isAvail = true := by
      by_contra hc
      rw [hh2] at hB
      simp [hc] at hB
    unfold NoAdjAvail at NA
    rw [List.chain'_append] at NA
    have hc := NA.2.1
    rw [List.chain'_cons] at hc
    exact hc.1 ⟨hblk, hhi⟩

theorem C10_witness :
    Reach heap1 ∧
    (heap1.avail.bytes + heap1.used.bytes = heap1.heap_bytes ∧
      heap1.avail.bytes = (heap1.avail.blocks.map
        (fun a => (heap1.heads a).size + EL_BLOCK_OVERHEAD)).sum ∧
      heap1.used.bytes = (heap1.used.blocks.map
        (fun a => (heap1.heads a).size + EL_BLOCK_OVERHEAD)).sum) :=
  have hre : Reach heap1 := Reach.malloc heap0 100 (Reach.init 4096 heap0 rfl)
  ⟨hre, C10_bytes_partition heap1 hre⟩

theorem C2_witness :
    Reach heap1 ∧ 0 ∈ blockAddrs heap1 ∧
    el_block_above heap1 0 = some 140 ∧
    ¬((heap1.heads 0).state = BlockState.available ∧
      (heap1.heads 140).state = BlockState.available) :=
  have hre : Reach heap1 := Reach.malloc heap0 100 (Reach.init 4096 heap0 rfl)
  ⟨hre, by decide, by decide,
    C2_no_adjacent_available heap1 0 140 hre (by decide) (by decide)⟩


theorem repFreeUpper_no_merge {blk : RBlock} {post : List RBlock}
    (h : ∀ hi ∈ post.head?, hi.isAvail = false) :
    repFreeUpper blk post = (⟨blk.size, true⟩, post) := by
  cases post with
  | nil => rfl
  | cons hi post' =>
    have := h hi (by simp)
    simp [repFreeUpper, this]

theorem repFreeUpper_merge {blk hi : RBlock} {post' : List RBlock}
    (h : hi.isAvail = true) :
    repFreeUpper blk (hi :: post')
      = (⟨blk.size + hi.size + EL_BLOCK_OVERHEAD, true⟩, post') := by
  simp [repFreeUpper, h]

theorem mem_of_getLast? {l : List RBlock} {a : RBlock} (h : a ∈ l.getLast?) :
    a ∈ l := by
  obtain ⟨hne, rfl⟩ := List.mem_getLast?_eq_getLast h
  exact List.getLast_mem hne

theorem repFreeLower_no_merge {pre post2 : List RBlock} {m : RBlock}
    (h : ∀ lo ∈ pre.getLast?, lo.isAvail = false) :
    repFreeLower pre m post2 = pre ++ m :: post2 := by
  unfold repFreeLower
  cases hl : pre.getLast? with
  | none => rfl
  | some lo =>
    have hfalse := h lo (by rw [hl]; rfl)
    simp [hfalse]

theorem repFreeLower_merge {pre post2 : List RBlock} {lo m : RBlock}
    (h : lo.isAvail = true) :
    repFreeLower (pre ++ [lo]) m post2
      = pre ++ (⟨lo.size + m.size + EL_BLOCK_OVERHEAD, true⟩ : RBlock) :: post2 := by
  simp [repFreeLower, List.getLast?_concat, List.dropLast_concat, h]

/-- C5: from any reachable state whose available list holds a single
block, a successful `el_malloc n` immediately followed by `el_free` of the
returned pointer restores the available list to that single block, with
the list's `length` and `bytes` totals and the block's size field
identical to their values before the allocation. -/
theorem C5_round_trip (st st' : CtlState) (b n p : Nat)
    (hre : Reach st) (hav : st.avail.blocks = [b])
    (hm : el_malloc st n = (st', some p)) :
    (el_free st' p).avail.blocks = st.avail.blocks ∧
    (el_free st' p).avail.length = st.avail.length ∧
    (el_free st' p).avail.bytes = st.avail.bytes ∧
    ((el_free st' p).heads b).size = (st.heads b).size := by
  obtain ⟨rep, M, NA⟩ := reach_models hre
  have hfind : el_find_first_avail st n = some b := by
    cases hf : el_find_first_avail st n with
    | none =>
      rw [el_malloc_none hf] at hm
      exact absurd (congrArg Prod.snd hm) (by simp)
    | some c =>
      have hmemc := (find_first_avail_some hf).1
      rw [hav] at hmemc
      simp at hmemc
      subst hmemc
      rfl
  have hmemA : b ∈ availAddrs 0 rep := M.avail_perm.mem_iff.1 (by rw [hav]; simp)
  obtain ⟨pre, blk, post, hrep, hbav, hab⟩ := mem_availAddrs_decomp hmemA
  subst hrep
  simp only [Nat.zero_add] at hab
  subst hab
  have hszb : n + EL_BLOCK_OVERHEAD ≤ blk.size := by
    have h1 := (find_first_avail_some hfind).2
    have h2 := models_head M
    rw [h2] at h1
    exact h1
  obtain ⟨hp2, M'⟩ := el_malloc_models M hbav hfind
  rw [hm] at hp2 M'
  simp only at hp2
  have hp : p = repSize pre + sizeofHead := by
    exact Option.some.inj hp2
  subst hp
  have hsingle : availAddrs 0 (pre ++ blk :: post) = [repSize pre] := by
    have h1 := M.avail_perm
    rw [hav] at h1
    exact List.perm_singleton.1 h1.symm
  rw [availAddrs_append] at hsingle
  simp only [Nat.zero_add, availAddrs, hbav, if_true] at hsingle
  have hlen := congrArg List.length hsingle
  simp only [List.length_append, List.length_cons, List.length_nil] at hlen
  have hprenil : availAddrs 0 pre = [] := List.length_eq_zero.1 (by omega)
  have Mf := el_free_models M' (show (⟨n, false⟩ : RBlock).isAvail = false from rfl)
  have hmeq : (⟨(⟨n, false⟩ : RBlock).size
      + (⟨blk.size - n - EL_BLOCK_OVERHEAD, true⟩ : RBlock).size
      + EL_BLOCK_OVERHEAD, true⟩ : RBlock) = ⟨blk.size, true⟩ := by
    simp only [RBlock.mk.injEq, and_true]
    show n + (blk.size - n - EL_BLOCK_OVERHEAD) + EL_BLOCK_OVERHEAD = blk.size
    have hov : EL_BLOCK_OVERHEAD = 40 := rfl
    omega
  have hnolo : ∀ lo ∈ pre.getLast?, lo.isAvail = false := by
    intro lo hlo
    exact availAddrs_eq_nil hprenil lo (mem_of_getLast? hlo)
  have hblke : (⟨blk.size, true⟩ : RBlock) = blk := by
    cases blk with
    | mk s av =>
      simp only [RBlock.mk.injEq, true_and]
      simpa using hbav.symm
  have hrF : repFree pre (⟨n, false⟩ : RBlock)
      ((⟨blk.size - n - EL_BLOCK_OVERHEAD, true⟩ : RBlock) :: post)
      = pre ++ blk :: post := by
    unfold repFree
    rw [repFreeUpper_merge rfl]
    dsimp only
    rw [repFreeLower_no_merge hnolo, hmeq, hblke]
  rw [hrF] at Mf
  have hfa : (el_free st' (repSize pre + sizeofHead)).avail.blocks = [repSize pre] := by
    have h1 := Mf.avail_perm
    rw [availAddrs_append] at h1
    simp only [Nat.zero_add, availAddrs, hbav, if_true] at h1
    rw [hprenil] at h1
    have h2 : availAddrs (repSize pre + blk.size + EL_BLOCK_OVERHEAD) post = [] :=
      List.length_eq_zero.1 (by omega)
    rw [h2] at h1
    exact List.perm_singleton.1 (by simpa using h1)
  refine ⟨?_, ?_, ?_, ?_⟩
  · rw [hfa, hav]
  · rw [Mf.avail_len, hfa, M.avail_len, hav]
  · rw [Mf.avail_bytes, M.avail_bytes]
  · rw [models_head Mf, models_head M]

theorem C5_witness :
    Reach heap0 ∧ heap0.avail.blocks = [0] ∧
    el_malloc heap0 100 = (heap1, some 32) ∧
    ((el_free heap1 32).avail.blocks = heap0.avail.blocks ∧
      (el_free heap1 32).avail.length = heap0.avail.length ∧
      (el_free heap1 32).avail.bytes = heap0.avail.bytes ∧
      ((el_free heap1 32).heads 0).size = (heap0.heads 0).size) :=
  have hre : Reach heap0 := Reach.init 4096 heap0 rfl
  have hm : el_malloc heap0 100 = (heap1, some 32) := rfl
  ⟨hre, by decide, hm, C5_round_trip heap0 heap1 0 100 32 hre (by decide) hm⟩


theorem free_no_merge (st : CtlState) (pre post : List RBlock) (blk : RBlock)
    (M : Models st (pre ++ blk :: post)) (hblk : blk.isAvail = false)
    (hup : ∀ hi ∈ post.head?, hi.isAvail = false)
    (hlo : ∀ lo ∈ pre.getLast?, lo.isAvail = false) :
    Models (el_free st (repSize pre + sizeofHead))
      (pre ++ (⟨blk.size, true⟩ : RBlock) :: post) := by
  have h := el_free_models M hblk
  unfold repFree at h
  rw [repFreeUpper_no_merge hup] at h
  dsimp only at h
  rw [repFreeLower_no_merge hlo] at h
  exact h

theorem free_merge_up (st : CtlState) (pre post : List RBlock) (blk nxt : RBlock)
    (M : Models st (pre ++ blk :: nxt :: post)) (hblk : blk.isAvail = false)
    (hnxt : nxt.isAvail = true)
    (hlo : ∀ lo ∈ pre.getLast?, lo.isAvail = false) :
    Models (el_free st (repSize pre + sizeofHead))
      (pre ++ (⟨blk.size + nxt.size + EL_BLOCK_OVERHEAD, true⟩ : RBlock) :: post) := by
  have h := el_free_models M hblk
  unfold repFree at h
  rw [repFreeUpper_merge hnxt] at h
  dsimp only at h
  rw [repFreeLower_no_merge hlo] at h
  exact h

theorem free_merge_down (st : CtlState) (pre' post : List RBlock) (blk lo : RBlock)
    (M : Models st ((pre' ++ [lo]) ++ blk :: post)) (hblk : blk.isAvail = false)
    (hup : ∀ hi ∈ post.head?, hi.isAvail = false)
    (hlo : lo.isAvail = true) :
    Models (el_free st (repSize (pre' ++ [lo]) + sizeofHead))
      (pre' ++ (⟨lo.size + blk.size + EL_BLOCK_OVERHEAD, true⟩ : RBlock) :: post) := by
  have h := el_free_models M hblk
  unfold repFree at h
  rw [repFreeUpper_no_merge hup] at h
  dsimp only at h
  rw [repFreeLower_merge hlo] at h
  exact h

theorem free_merge_both (st : CtlState) (pre' post : List RBlock) (blk lo nxt : RBlock)
    (M : Models st ((pre' ++ [lo]) ++ blk :: nxt :: post)) (hblk : blk.isAvail = false)
    (hnxt : nxt.isAvail = true) (hlo : lo.isAvail = true) :
    Models (el_free st (repSize (pre' ++ [lo]) + sizeofHead))
      (pre' ++ (⟨lo.size + blk.size + nxt.size + 2 * EL_BLOCK_OVERHEAD, true⟩ : RBlock)
        :: post) := by
  have h := el_free_models M hblk
  unfold repFree at h
  rw [repFreeUpper_merge hnxt] at h
  dsimp only at h
  rw [repFreeLower_merge hlo] at h
  have hx : lo.size + (blk.size + nxt.size + EL_BLOCK_OVERHEAD) + EL_BLOCK_OVERHEAD
      = lo.size + blk.size + nxt.size + 2 * EL_BLOCK_OVERHEAD := by omega
  rw [hx] at h
  exact h

/-- C6 (amended): for three physically adjacent used blocks A, B, C whose
outer physical neighbours — the block below A and the block above C — are
not available, freeing the three payload pointers in any of the six
possible orders ends with the combined region represented by exactly one
available block at A's unmoved address whose size field is
`size(A) + size(B) + size(C) + 2·EL_BLOCK_OVERHEAD`, the rest of the heap
untouched. -/
theorem C6_coalescing_symmetry (st : CtlState) (pre post : List RBlock)
    (A B C : RBlock) (σ : List Nat)
    (M : Models st (pre ++ A :: B :: C :: post))
    (hA : A.isAvail = false) (hB : B.isAvail = false) (hC : C.isAvail = false)
    (hlo : ∀ lo ∈ pre.getLast?, lo.isAvail = false)
    (hhi : ∀ hi ∈ post.head?, hi.isAvail = false)
    (hσ : σ ∈ [
      [repSize pre + sizeofHead,
       repSize pre + A.size + EL_BLOCK_OVERHEAD + sizeofHead,
       repSize pre + A.size + B.size + 2 * EL_BLOCK_OVERHEAD + sizeofHead],
      [repSize pre + sizeofHead,
       repSize pre + A.size + B.size + 2 * EL_BLOCK_OVERHEAD + sizeofHead,
       repSize pre + A.size + EL_BLOCK_OVERHEAD + sizeofHead],
      [repSize pre + A.size + EL_BLOCK_OVERHEAD + sizeofHead,
       repSize pre + sizeofHead,
       repSize pre + A.size + B.size + 2 * EL_BLOCK_OVERHEAD + sizeofHead],
      [repSize pre + A.size + EL_BLOCK_OVERHEAD + sizeofHead,
       repSize pre + A.size + B.size + 2 * EL_BLOCK_OVERHEAD + sizeofHead,
       repSize pre + sizeofHead],
      [repSize pre + A.size + B.size + 2 * EL_BLOCK_OVERHEAD + sizeofHead,
       repSize pre + sizeofHead,
       repSize pre + A.size + EL_BLOCK_OVERHEAD + sizeofHead],
      [repSize pre + A.size + B.size + 2 * EL_BLOCK_OVERHEAD + sizeofHead,
       repSize pre + A.size + EL_BLOCK_OVERHEAD + sizeofHead,
       repSize pre + sizeofHead]]) :
    Models (σ.foldl el_free st)
      (pre ++ (⟨A.size + B.size + C.size + 2 * EL_BLOCK_OVERHEAD, true⟩ : RBlock) :: post) ∧
    ((σ.foldl el_free st).heads (repSize pre)).size
      = A.size + B.size + C.size + 2 * EL_BLOCK_OVERHEAD ∧
    ((σ.foldl el_free st).heads (repSize pre)).state = BlockState.available := by
  have hov : EL_BLOCK_OVERHEAD = 40 := rfl
  simp only [List.mem_cons, List.not_mem_nil, or_false] at hσ
  have hfin : ∀ st' : CtlState,
      Models st' (pre ++ (⟨A.size + B.size + C.size + 2 * EL_BLOCK_OVERHEAD, true⟩
        : RBlock) :: post) →
      Models st' (pre ++ (⟨A.size + B.size + C.size + 2 * EL_BLOCK_OVERHEAD, true⟩
        : RBlock) :: post) ∧
      (st'.heads (repSize pre)).size
        = A.size + B.size + C.size + 2 * EL_BLOCK_OVERHEAD ∧
      (st'.heads (repSize pre)).state = BlockState.available := by
    intro st' M'
    have hh := models_head M'
    exact ⟨M', by rw [hh], by rw [hh]; simp⟩
  have hupB : ∀ (l : List RBlock), ∀ hi ∈ (B :: l).head?, hi.isAvail = false := by
    intro l hi hh
    simp at hh
    subst hh
    exact hB
  have hupC : ∀ (l : List RBlock), ∀ hi ∈ (C :: l).head?, hi.isAvail = false := by
    intro l hi hh
    simp at hh
    subst hh
    exact hC
  have hlastA : ∀ (l : List RBlock), ∀ lo ∈ (l ++ [A]).getLast?, lo.isAvail = false := by
    intro l lo hl
    rw [List.getLast?_concat] at hl
    simp at hl
    subst hl
    exact hA
  have hlastB : ∀ (l : List RBlock), ∀ lo ∈ (l ++ [B]).getLast?, lo.isAvail = false := by
    intro l lo hl
    rw [List.getLast?_concat] at hl
    simp at hl
    subst hl
    exact hB
  rcases hσ with rfl | rfl | rfl | rfl | rfl | rfl
  · -- order A, B, C
    simp only [List.foldl]
    have M1 := free_no_merge st pre (B :: C :: post) A M hA
      (by intro hi hh; simp at hh; subst hh; exact hB) hlo
    rw [show pre ++ (⟨A.size, true⟩ : RBlock) :: B :: C :: post
        = (pre ++ [(⟨A.size, true⟩ : RBlock)]) ++ B :: C :: post from by simp] at M1
    have M2 := free_merge_down _ pre (C :: post) B (⟨A.size, true⟩ : RBlock) M1 hB
      (by intro hi hh; simp at hh; subst hh; exact hC) rfl
    rw [show repSize (pre ++ [(⟨A.size, true⟩ : RBlock)])
        = repSize pre + A.size + EL_BLOCK_OVERHEAD from by
      rw [repSize_append]; simp [repSize]; omega] at M2
    rw [show pre ++ (⟨A.size + B.size + EL_BLOCK_OVERHEAD, true⟩ : RBlock) :: C :: post
        = (pre ++ [(⟨A.size + B.size + EL_BLOCK_OVERHEAD, true⟩ : RBlock)]) ++ C :: post
        from by simp] at M2
    have M3 := free_merge_down _ pre post C
      (⟨A.size + B.size + EL_BLOCK_OVERHEAD, true⟩ : RBlock) M2 hC hhi rfl
    rw [show repSize (pre ++ [(⟨A.size + B.size + EL_BLOCK_OVERHEAD, true⟩ : RBlock)])
        = repSize pre + A.size + B.size + 2 * EL_BLOCK_OVERHEAD from by
      rw [repSize_append]; simp [repSize]; omega] at M3
    dsimp only at M3
    rw [show A.size + B.size + EL_BLOCK_OVERHEAD + C.size + EL_BLOCK_OVERHEAD
        = A.size + B.size + C.size + 2 * EL_BLOCK_OVERHEAD from by omega] at M3
    exact hfin _ M3
  · -- order A, C, B
    simp only [List.foldl]
    have M1 := free_no_merge st pre (B :: C :: post) A M hA (hupB _) hlo
    rw [show pre ++ (⟨A.size, true⟩ : RBlock) :: B :: C :: post
        = (pre ++ [(⟨A.size, true⟩ : RBlock), B]) ++ C :: post from by simp] at M1
    have M2 := free_no_merge _ (pre ++ [(⟨A.size, true⟩ : RBlock), B]) post C M1 hC hhi
      (by
        intro lo hl
        rw [show pre ++ [(⟨A.size, true⟩ : RBlock), B]
            = (pre ++ [(⟨A.size, true⟩ : RBlock)]) ++ [B] from by simp] at hl
        exact hlastB _ lo hl)
    rw [show repSize (pre ++ [(⟨A.size, true⟩ : RBlock), B])
        = repSize pre + A.size + B.size + 2 * EL_BLOCK_OVERHEAD from by
      rw [repSize_append]; simp [repSize]; omega] at M2
    rw [show (pre ++ [(⟨A.size, true⟩ : RBlock), B]) ++ (⟨C.size, true⟩ : RBlock) :: post
        = (pre ++ [(⟨A.size, true⟩ : RBlock)])
            ++ B :: (⟨C.size, true⟩ : RBlock) :: post from by simp] at M2
    have M3 := free_merge_both _ pre post B (⟨A.size, true⟩ : RBlock)
      (⟨C.size, true⟩ : RBlock) M2 hB rfl rfl
    rw [show repSize (pre ++ [(⟨A.size, true⟩ : RBlock)])
        = repSize pre + A.size + EL_BLOCK_OVERHEAD from by
      rw [repSize_append]; simp [repSize]; omega] at M3
    dsimp only at M3
    exact hfin _ M3
  · -- order B, A, C
    simp only [List.foldl]
    rw [show pre ++ A :: B :: C :: post = (pre ++ [A]) ++ B :: C :: post
        from by simp] at M
    have M1 := free_no_merge st (pre ++ [A]) (C :: post) B M hB (hupC _) (hlastA _)
    rw [show repSize (pre ++ [A]) = repSize pre + A.size + EL_BLOCK_OVERHEAD from by
      rw [repSize_append]; simp [repSize]; omega] at M1
    rw [show (pre ++ [A]) ++ (⟨B.size, true⟩ : RBlock) :: C :: post
        = pre ++ A :: (⟨B.size, true⟩ : RBlock) :: C :: post from by simp] at M1
    have M2 := free_merge_up _ pre (C :: post) A (⟨B.size, true⟩ : RBlock) M1 hA rfl hlo
    dsimp only at M2
    rw [show pre ++ (⟨A.size + B.size + EL_BLOCK_OVERHEAD, true⟩ : RBlock) :: C :: post
        = (pre ++ [(⟨A.size + B.size + EL_BLOCK_OVERHEAD, true⟩ : RBlock)]) ++ C :: post
        from by simp] at M2
    have M3 := free_merge_down _ pre post C
      (⟨A.size + B.size + EL_BLOCK_OVERHEAD, true⟩ : RBlock) M2 hC hhi rfl
    rw [show repSize (pre ++ [(⟨A.size + B.size + EL_BLOCK_OVERHEAD, true⟩ : RBlock)])
        = repSize pre + A.size + B.size + 2 * EL_BLOCK_OVERHEAD from by
      rw [repSize_append]; simp [repSize]; omega] at M3
    dsimp only at M3
    rw [show A.size + B.size + EL_BLOCK_OVERHEAD + C.size + EL_BLOCK_OVERHEAD
        = A.size + B.size + C.size + 2 * EL_BLOCK_OVERHEAD from by omega] at M3
    exact hfin _ M3
  · -- order B, C, A
    simp only [List.foldl]
    rw [show pre ++ A :: B :: C :: post = (pre ++ [A]) ++ B :: C :: post
        from by simp] at M
    have M1 := free_no_merge st (pre ++ [A]) (C :: post) B M hB (hupC _) (hlastA _)
    rw [show repSize (pre ++ [A]) = repSize pre + A.size + EL_BLOCK_OVERHEAD from by
      rw [repSize_append]; simp [repSize]; omega] at M1
    rw [show (pre ++ [A]) ++ (⟨B.size, true⟩ : RBlock) :: C :: post
        = ((pre ++ [A]) ++ [(⟨B.size, true⟩ : RBlock)]) ++ C :: post
        from by simp] at M1
    have M2 := free_merge_down _ (pre ++ [A]) post C (⟨B.size, true⟩ : RBlock) M1 hC hhi rfl
    rw [show repSize ((pre ++ [A]) ++ [(⟨B.size, true⟩ : RBlock)])
        = repSize pre + A.size + B.size + 2 * EL_BLOCK_OVERHEAD from by
      rw [repSize_append, repSize_append]; simp [repSize]; omega] at M2
    dsimp only at M2
    rw [show (pre ++ [A]) ++ (⟨B.size + C.size + EL_BLOCK_OVERHEAD, true⟩ : RBlock) :: post
        = pre ++ A :: (⟨B.size + C.size + EL_BLOCK_OVERHEAD, true⟩ : RBlock) :: post
        from by simp] at M2
    have M3 := free_merge_up _ pre post A
      (⟨B.size + C.size + EL_BLOCK_OVERHEAD, true⟩ : RBlock) M2 hA rfl hlo
    dsimp only at M3
    rw [show A.size + (B.size + C.size + EL_BLOCK_OVERHEAD) + EL_BLOCK_OVERHEAD
        = A.size + B.size + C.size + 2 * EL_BLOCK_OVERHEAD from by omega] at M3
    exact hfin _ M3
  · -- order C, A, B
    simp only [List.foldl]
    rw [show pre ++ A :: B :: C :: post = (pre ++ [A, B]) ++ C :: post
        from by simp] at M
    have M1 := free_no_merge st (pre ++ [A, B]) post C M hC hhi
      (by
        intro lo hl
        rw [show pre ++ [A, B] = (pre ++ [A]) ++ [B] from by simp] at hl
        exact hlastB _ lo hl)
    rw [show repSize (pre ++ [A, B])
        = repSize pre + A.size + B.size + 2 * EL_BLOCK_OVERHEAD from by
      rw [repSize_append]; simp [repSize]; omega] at M1
    rw [show (pre ++ [A, B]) ++ (⟨C.size, true⟩ : RBlock) :: post
        = pre ++ A :: B :: (⟨C.size, true⟩ : RBlock) :: post from by simp] at M1
    have M2 := free_no_merge _ pre (B :: (⟨C.size, true⟩ : RBlock) :: post) A M1 hA
      (hupB _) hlo
    rw [show pre ++ (⟨A.size, true⟩ : RBlock) :: B :: (⟨C.size, true⟩ : RBlock) :: post
        = (pre ++ [(⟨A.size, true⟩ : RBlock)]) ++ B :: (⟨C.size, true⟩ : RBlock) :: post
        from by simp] at M2
    have M3 := free_merge_both _ pre post B (⟨A.size, true⟩ : RBlock)
      (⟨C.size, true⟩ : RBlock) M2 hB rfl rfl
    rw [show repSize (pre ++ [(⟨A.size, true⟩ : RBlock)])
        = repSize pre + A.size + EL_BLOCK_OVERHEAD from by
      rw [repSize_append]; simp [repSize]; omega] at M3
    dsimp only at M3
    exact hfin _ M3
  · -- order C, B, A
    simp only [List.foldl]
    rw [show pre ++ A :: B :: C :: post = (pre ++ [A, B]) ++ C :: post
        from by simp] at M
    have M1 := free_no_merge st (pre ++ [A, B]) post C M hC hhi
      (by
        intro lo hl
        rw [show pre ++ [A, B] = (pre ++ [A]) ++ [B] from by simp] at hl
        exact hlastB _ lo hl)
    rw [show repSize (pre ++ [A, B])
        = repSize pre + A.size + B.size + 2 * EL_BLOCK_OVERHEAD from by
      rw [repSize_append]; simp [repSize]; omega] at M1
    rw [show (pre ++ [A, B]) ++ (⟨C.size, true⟩ : RBlock) :: post
        = (pre ++ [A]) ++ B :: (⟨C.size, true⟩ : RBlock) :: post from by simp] at M1
    have M2 := free_merge_up _ (pre ++ [A]) post B (⟨C.size, true⟩ : RBlock) M1 hB rfl
      (hlastA _)
    rw [show repSize (pre ++ [A]) = repSize pre + A.size + EL_BLOCK_OVERHEAD from by
      rw [repSize_append]; simp [repSize]; omega] at M2
    dsimp only at M2
    rw [show (pre ++ [A]) ++ (⟨B.size + C.size + EL_BLOCK_OVERHEAD, true⟩ : RBlock) :: post
        = pre ++ A :: (⟨B.size + C.size + EL_BLOCK_OVERHEAD, true⟩ : RBlock) :: post
        from by simp] at M2
    have M3 := free_merge_up _ pre post A
      (⟨B.size + C.size + EL_BLOCK_OVERHEAD, true⟩ : RBlock) M2 hA rfl hlo
    dsimp only at M3
    rw [show A.size + (B.size + C.size + EL_BLOCK_OVERHEAD) + EL_BLOCK_OVERHEAD
        = A.size + B.size + C.size + 2 * EL_BLOCK_OVERHEAD from by omega] at M3
    exact hfin _ M3

/-- C6 (counterexample to the claim as stated): in `demoFreeD` the blocks
at 90, 230, 370 are three physically adjacent used blocks of size 100, but
the block physically below them (address 0) is available; freeing the
three in order 90, 230, 370 ends with the available list holding exactly
one block — of size 4056, not `100+100+100+2·overhead = 380`, because the
coalescing also swallowed the neighbouring free space. -/
theorem C6_counterexample :
    (demoFreeD.heads 90).state = BlockState.used ∧
    (demoFreeD.heads 90).size = 100 ∧
    (demoFreeD.heads 230).state = BlockState.used ∧
    (demoFreeD.heads 230).size = 100 ∧
    (demoFreeD.heads 370).state = BlockState.used ∧
    (demoFreeD.heads 370).size = 100 ∧
    el_block_above demoFreeD 90 = some 230 ∧
    el_block_above demoFreeD 230 = some 370 ∧
    demoFreedABC.avail.blocks = [0] ∧
    (demoFreedABC.heads 0).size = 4056 ∧
    demoFreedABC.used.blocks = [] ∧
    (4056 : Nat) ≠ 100 + 100 + 100 + 2 * EL_BLOCK_OVERHEAD := by
  decide

theorem C6_witness :
    Models demoUsed5
      ([(⟨50, false⟩ : RBlock)] ++ (⟨100, false⟩ : RBlock) :: (⟨100, false⟩ : RBlock)
        :: (⟨100, false⟩ : RBlock) :: [(⟨50, false⟩ : RBlock), (⟨3456, true⟩ : RBlock)]) ∧
    Models ([122, 262, 402].foldl el_free demoUsed5)
      ([(⟨50, false⟩ : RBlock)] ++ (⟨380, true⟩ : RBlock)
        :: [(⟨50, false⟩ : RBlock), (⟨3456, true⟩ : RBlock)]) ∧
    (([122, 262, 402].foldl el_free demoUsed5).heads 90).size = 380 ∧
    (([122, 262, 402].foldl el_free demoUsed5).heads 90).state
      = BlockState.available := by
  have M : Models demoUsed5
      ([(⟨50, false⟩ : RBlock)] ++ (⟨100, false⟩ : RBlock) :: (⟨100, false⟩ : RBlock)
        :: (⟨100, false⟩ : RBlock)
        :: [(⟨50, false⟩ : RBlock), (⟨3456, true⟩ : RBlock)]) :=
    ⟨by decide, by decide, by decide, by decide, by decide, by decide, by decide,
      by decide⟩
  have h := C6_coalescing_symmetry demoUsed5 [(⟨50, false⟩ : RBlock)]
    [(⟨50, false⟩ : RBlock), (⟨3456, true⟩ : RBlock)]
    (⟨100, false⟩ : RBlock) (⟨100, false⟩ : RBlock) (⟨100, false⟩ : RBlock)
    [122, 262, 402] M rfl rfl rfl
    (by intro lo hl; simp [Option.mem_def] at hl; subst hl; rfl)
    (by intro hi hh; simp [Option.mem_def] at hh; subst hh; rfl)
    (by decide)
  exact ⟨M, h.1, h.2.1, h.2.2⟩
